import Mathlib

/-!
Verification of the asmjit Compiler middle-end (register-allocation pass core)
against its natural-language specification.

The definitions below are a shallow embedding of the C++ sources:
  - `src/asmjit/base/rapass.cpp`     (RABlock edge ops, RAPass steps, liveness)
  - `src/asmjit/base/rapass_p.h`     (data model, dominance queries)
  - `src/asmjit/base/rabuilders_p.h` (RATiedBuilder, RACFGBuilder)

Machine integers are modelled as `Nat` with explicit truncation (`% 256`) where
the source stores into `uint8_t` fields.  Fallible operations return `Except`.
Zone-heap growth (`willGrow`) can fail with `NoHeapMemory`; it only reserves
capacity and never changes contents, so it is modelled as a boolean oracle
passed to each call.
-/

namespace AsmJit

/-- Error codes surfaced by the middle-end (subset used by the modelled code,
from `kErrorOk` / `kErrorNoHeapMemory` / `kErrorInvalidState` /
`kErrorOverlappedRegs`). `Ok` is represented by `Except.ok`. -/
inductive RAError where
  | noHeapMemory
  | invalidState
  | overlappedRegs
deriving DecidableEq, Repr

/-! ### RABlock edge bookkeeping

`RABlock::appendSuccessor` / `RABlock::prependSuccessor` (rapass.cpp:48-80).
Blocks are identified by their dense block id; the state carries every block's
`_successors` and `_predecessors` vectors as functions from block id to the
vector contents.  `ZoneVector::contains` is a linear membership test, modelled
by decidable list membership. -/

structure EdgeState where
  succ : Nat → List Nat
  pred : Nat → List Nat

/-- The state in which every block has empty `_predecessors`/`_successors`,
as set up by the `RABlock` constructor. -/
def initEdgeState : EdgeState := ⟨fun _ => [], fun _ => []⟩

/-- `RABlock::appendSuccessor` (rapass.cpp:48-63).  `g1`,`g2` are the results
of the two `willGrow` calls (`true` = success); `willGrow` never modifies the
vector contents, so a failure leaves the state untouched and propagates
`NoHeapMemory`. -/
def appendSuccessor (st : EdgeState) (predecessor successor : Nat)
    (g1 g2 : Bool) : Except RAError EdgeState :=
  if successor ∈ st.succ predecessor then .ok st
  else if !g1 then .error .noHeapMemory
  else if !g2 then .error .noHeapMemory
  else .ok
    { succ := fun b => if b = predecessor then st.succ predecessor ++ [successor] else st.succ b
      pred := fun b => if b = successor then st.pred successor ++ [predecessor] else st.pred b }

/-- `RABlock::prependSuccessor` (rapass.cpp:65-80); identical to
`appendSuccessor` except that both sides are prepended. -/
def prependSuccessor (st : EdgeState) (predecessor successor : Nat)
    (g1 g2 : Bool) : Except RAError EdgeState :=
  if successor ∈ st.succ predecessor then .ok st
  else if !g1 then .error .noHeapMemory
  else if !g2 then .error .noHeapMemory
  else .ok
    { succ := fun b => if b = predecessor then successor :: st.succ predecessor else st.succ b
      pred := fun b => if b = successor then predecessor :: st.pred successor else st.pred b }

/-- One invocation of either edge operation. -/
inductive EdgeOp where
  | append (p s : Nat) (g1 g2 : Bool)
  | prepend (p s : Nat) (g1 g2 : Bool)

/-- Apply one edge operation; an error (`NoHeapMemory`) leaves the state
unchanged, exactly as in the source where `willGrow` failures occur before any
mutation. -/
def applyEdgeOp (st : EdgeState) : EdgeOp → EdgeState
  | .append p s g1 g2 => ((appendSuccessor st p s g1 g2).toOption).getD st
  | .prepend p s g1 g2 => ((prependSuccessor st p s g1 g2).toOption).getD st

/-- Run a sequence of edge operations from a starting state. -/
def runEdgeOps (st : EdgeState) (ops : List EdgeOp) : EdgeState :=
  ops.foldl applyEdgeOp st

/-- Predecessor/successor symmetry: `s ∈ b.successors ⇔ b ∈ s.predecessors`. -/
def EdgeSym (st : EdgeState) : Prop :=
  ∀ b s : Nat, s ∈ st.succ b ↔ b ∈ st.pred s

/-- The edge installation performed by `RACFGBuilder::run` for a conditional
jump (rabuilders_p.h:334 and 369): first `appendSuccessor(jumpSuccessor)`,
then `prependSuccessor(flowSuccessor)` on the block being closed. -/
def condJumpEdges (st : EdgeState) (cur jumpSuccessor flowSuccessor : Nat)
    (g1 g2 g3 g4 : Bool) : Except RAError EdgeState := do
  let st ← appendSuccessor st cur jumpSuccessor g1 g2
  prependSuccessor st cur flowSuccessor g3 g4

/-- Successor vector of block `b` after a fallible edge computation, or `none`
on error (used to state concrete facts without comparing function-typed
states). -/
def succAfter (r : Except RAError EdgeState) (b : Nat) : Option (List Nat) :=
  match r with
  | .ok st => some (st.succ b)
  | .error _ => none

theorem appendSuccessor_sym (st : EdgeState) (p s : Nat) (g1 g2 : Bool)
    (h : EdgeSym st) (st' : EdgeState)
    (hr : appendSuccessor st p s g1 g2 = .ok st') : EdgeSym st' := by
  unfold appendSuccessor at hr
  split at hr
  · cases hr; exact h
  · split at hr
    · cases hr
    · split at hr
      · cases hr
      · cases hr
        intro b t
        constructor
        · intro hm
          simp only [List.mem_append, List.mem_singleton] at hm ⊢
          by_cases hb : b = p <;> by_cases ht : t = s <;>
            simp [hb, ht] at hm ⊢ <;>
            first
            | (rcases hm with hm | hm
               · exact Or.inl ((h _ _).mp hm)
               · simp_all)
            | exact Or.inl ((h _ _).mp hm)
            | exact (h _ _).mp hm
        · intro hm
          simp only [List.mem_append, List.mem_singleton] at hm ⊢
          by_cases hb : b = p <;> by_cases ht : t = s <;>
            simp [hb, ht] at hm ⊢ <;>
            first
            | (rcases hm with hm | hm
               · exact Or.inl ((h _ _).mpr hm)
               · simp_all)
            | exact Or.inl ((h _ _).mpr hm)
            | exact (h _ _).mpr hm

theorem prependSuccessor_sym (st : EdgeState) (p s : Nat) (g1 g2 : Bool)
    (h : EdgeSym st) (st' : EdgeState)
    (hr : prependSuccessor st p s g1 g2 = .ok st') : EdgeSym st' := by
  unfold prependSuccessor at hr
  split at hr
  · cases hr; exact h
  · split at hr
    · cases hr
    · split at hr
      · cases hr
      · cases hr
        intro b t
        constructor
        · intro hm
          simp only [List.mem_cons] at hm ⊢
          by_cases hb : b = p <;> by_cases ht : t = s <;>
            simp [hb, ht] at hm ⊢ <;>
            first
            | (rcases hm with hm | hm
               · simp_all
               · exact Or.inr ((h _ _).mp hm))
            | exact Or.inr ((h _ _).mp hm)
            | exact (h _ _).mp hm
        · intro hm
          simp only [List.mem_cons] at hm ⊢
          by_cases hb : b = p <;> by_cases ht : t = s <;>
            simp [hb, ht] at hm ⊢ <;>
            first
            | (rcases hm with hm | hm
               · simp_all
               · exact Or.inr ((h _ _).mpr hm))
            | exact Or.inr ((h _ _).mpr hm)
            | exact (h _ _).mpr hm

theorem applyEdgeOp_sym (st : EdgeState) (op : EdgeOp) (h : EdgeSym st) :
    EdgeSym (applyEdgeOp st op) := by
  cases op with
  | append p s g1 g2 =>
      cases hr : appendSuccessor st p s g1 g2 with
      | ok st' =>
          simpa [applyEdgeOp, hr, Except.toOption] using
            appendSuccessor_sym st p s g1 g2 h st' hr
      | error e => simpa [applyEdgeOp, hr, Except.toOption] using h
  | prepend p s g1 g2 =>
      cases hr : prependSuccessor st p s g1 g2 with
      | ok st' =>
          simpa [applyEdgeOp, hr, Except.toOption] using
            prependSuccessor_sym st p s g1 g2 h st' hr
      | error e => simpa [applyEdgeOp, hr, Except.toOption] using h

theorem runEdgeOps_sym (ops : List EdgeOp) (st : EdgeState) (h : EdgeSym st) :
    EdgeSym (runEdgeOps st ops) := by
  induction ops generalizing st with
  | nil => exact h
  | cons op ops ih => exact ih (applyEdgeOp st op) (applyEdgeOp_sym st op h)

theorem initEdgeState_sym : EdgeSym initEdgeState := by
  intro b s
  simp [initEdgeState]

/-- C5. The edge operations keep predecessor/successor lists symmetric and are
idempotent: starting from the initial (all-empty) state, after any sequence of
`appendSuccessor`/`prependSuccessor` calls, `s ∈ b.successors ⇔
b ∈ s.predecessors`; and calling either operation with an already-present
successor returns Ok and leaves both vectors unchanged. -/
theorem edge_ops_symmetric_and_idempotent :
    (∀ ops : List EdgeOp, EdgeSym (runEdgeOps initEdgeState ops)) ∧
    (∀ (st : EdgeState) (b s : Nat) (g1 g2 : Bool), s ∈ st.succ b →
      appendSuccessor st b s g1 g2 = .ok st ∧
      prependSuccessor st b s g1 g2 = .ok st) := by
  constructor
  · intro ops
    exact runEdgeOps_sym ops initEdgeState initEdgeState_sym
  · intro st b s g1 g2 hmem
    constructor
    · unfold appendSuccessor
      simp [hmem]
    · unfold prependSuccessor
      simp [hmem]

/-- Witness for C5 at a concrete input: after `append 0 1`, block 1 is a
successor of block 0 iff block 0 is a predecessor of block 1, and re-adding
the edge is a no-op. -/
theorem edge_ops_symmetric_and_idempotent_witness :
    (1 ∈ (runEdgeOps initEdgeState [.append 0 1 true true]).succ 0 ↔
      0 ∈ (runEdgeOps initEdgeState [.append 0 1 true true]).pred 1) ∧
    (appendSuccessor (runEdgeOps initEdgeState [.append 0 1 true true]) 0 1 true true =
      .ok (runEdgeOps initEdgeState [.append 0 1 true true]) ∧
     prependSuccessor (runEdgeOps initEdgeState [.append 0 1 true true]) 0 1 true true =
      .ok (runEdgeOps initEdgeState [.append 0 1 true true])) :=
  ⟨edge_ops_symmetric_and_idempotent.1 [.append 0 1 true true] 0 1,
   edge_ops_symmetric_and_idempotent.2 (runEdgeOps initEdgeState [.append 0 1 true true])
     0 1 true true (by decide)⟩

/-- C1 counterexample. Processing a conditional jump at a block with no
successors yet (block 0, jump target block 1, fall-through block 2) yields the
successor vector `[2, 1]`: index 0 holds the fall-through block, not the jump
target, and index 1 holds the jump target, not the fall-through — the claimed
ordering is the reverse of what the code produces. -/
theorem condjump_successor_order_counterexample :
    succAfter (condJumpEdges initEdgeState 0 1 2 true true true true) 0 = some [2, 1] ∧
    some [2, 1] ≠ some [1, 2] := by
  constructor
  · rfl
  · decide

/-- C1 amended. For a conditional jump closing a block `cur` whose successor
vector is still empty (which holds whenever a block is closed, since edges out
of a block are only installed at its closing point), with distinct jump target
and fall-through, the resulting successor vector is `[flowSuccessor,
jumpSuccessor]`: index 0 is the fall-through and index 1 is the taken (jump)
target. -/
theorem condjump_successor_order (st : EdgeState) (cur jt ft : Nat)
    (hempty : st.succ cur = []) (hne : jt ≠ ft) :
    ∃ st', condJumpEdges st cur jt ft true true true true = .ok st' ∧
      st'.succ cur = [ft, jt] := by
  have h1 : jt ∉ st.succ cur := by simp [hempty]
  set st1 : EdgeState :=
      { succ := fun b => if b = cur then st.succ cur ++ [jt] else st.succ b
        pred := fun b => if b = jt then st.pred jt ++ [cur] else st.pred b } with hst1
  have happ : appendSuccessor st cur jt true true = .ok st1 := by
    unfold appendSuccessor
    rw [if_neg h1]
    rfl
  have h2 : ft ∉ st1.succ cur := by
    simp [hst1, hempty, Ne.symm hne]
  have hpre : prependSuccessor st1 cur ft true true = .ok
      { succ := fun b => if b = cur then ft :: st1.succ cur else st1.succ b
        pred := fun b => if b = ft then cur :: st1.pred ft else st1.pred b } := by
    unfold prependSuccessor
    rw [if_neg h2]
    rfl
  refine ⟨{ succ := fun b => if b = cur then ft :: st1.succ cur else st1.succ b
            pred := fun b => if b = ft then cur :: st1.pred ft else st1.pred b }, ?_, ?_⟩
  · unfold condJumpEdges
    rw [happ]
    exact hpre
  · simp [hst1, hempty]

/-- Witness for C1 amended at concrete input: block 0 closing at a conditional
jump with taken target 1 and fall-through 2 ends with successors `[2, 1]`. -/
theorem condjump_successor_order_witness :
    ∃ st', condJumpEdges initEdgeState 0 1 2 true true true true = .ok st' ∧
      st'.succ 0 = [2, 1] :=
  condjump_successor_order initEdgeState 0 1 2 (by rfl) (by decide)

/-! ### RATiedBuilder

`RATiedBuilder` (rabuilders_p.h:29-155) with `RARegStats` (rapass_p.h:67-96)
and `TiedReg` (rapass_p.h:638-744).  The builder's `tmp` buffer is one tied
entry per virtual register mentioned at the current instruction; each virtual
register's `_tiedReg` back-pointer is modelled as a map from virtual-register
id to the index of its entry in `tmp`, and `_workReg` as a map to the work id
assigned by `RAPass::_addToWorkRegs` (rapass.cpp:104-131). -/

/-- Modelled from the spec: `Globals::kInvalidRegId` (globals.h is not in the
sources).  Physical-register "none" is a named sentinel; the ids live in
`uint8_t` fields, so the sentinel is 0xFF. -/
def kAnyReg : Nat := 255

/-- `RARegStats::makeUsed` — packed `uint32` with the used bits at index 16. -/
def makeUsed (s kind : Nat) : Nat := s ||| (1 <<< (16 + kind))

/-- `RARegStats::makePrecolored` — precolored bits at index 0. -/
def makePrecolored (s kind : Nat) : Nat := s ||| (1 <<< (0 + kind))

/-- `RARegStats::hasPrecolored(kind)`. -/
def hasPrecolored (s kind : Nat) : Bool := Nat.testBit s (0 + kind)

/-- `RARegStats::hasUsed(kind)`. -/
def hasUsed (s kind : Nat) : Bool := Nat.testBit s (16 + kind)

/-- `TiedReg` (rapass_p.h:638): `refCount`, `rPhysId`, `wPhysId` are `uint8_t`
fields of the packed union. -/
structure TiedReg where
  vRegId : Nat
  flags : Nat
  allocableRegs : Nat
  refCount : Nat
  rPhysId : Nat
  wPhysId : Nat
deriving DecidableEq, Repr

/-- `TiedReg::init` (rapass_p.h:660-668); the physical ids are truncated by
the `static_cast<uint8_t>`. -/
def TiedReg.init (vRegId flags allocableRegs rPhysId wPhysId : Nat) : TiedReg :=
  { vRegId := vRegId
    flags := flags
    allocableRegs := allocableRegs
    refCount := 1
    rPhysId := rPhysId % 256
    wPhysId := wPhysId % 256 }

/-- Builder state: the `tmp` buffer (with `cur - tmp` = its length), the
virtual registers' `_tiedReg` and `_workReg` back-pointers, the length of the
pass's `_workRegs` vector, and the builder's `regStats`. -/
structure RATiedBuilderState where
  tmp : List TiedReg
  tiedOf : Nat → Option Nat
  workOf : Nat → Option Nat
  workRegsLen : Nat
  regStats : Nat

/-- `RATiedBuilder::reset` — empty buffer, zeroed statistics; virtual
registers start with null back-pointers. -/
def RATiedBuilder.reset : RATiedBuilderState :=
  { tmp := []
    tiedOf := fun _ => none
    workOf := fun _ => none
    workRegsLen := 0
    regStats := 0 }

/-- `RAPass::addToWorkRegs` (rapass_p.h:1018-1023) + `RAPass::_addToWorkRegs`
(rapass.cpp:104-131): no-op when the virtual register already has a work
register; otherwise assigns the next dense work id.  `alloc` is the outcome of
the zone allocations (`willGrow`/`allocT`). -/
def addToWorkRegs (st : RATiedBuilderState) (vRegId : Nat) (alloc : Bool) :
    Except RAError RATiedBuilderState :=
  match st.workOf vRegId with
  | some _ => .ok st
  | none =>
    if !alloc then .error .noHeapMemory
    else .ok { st with
      workOf := fun v => if v = vRegId then some st.workRegsLen else st.workOf v
      workRegsLen := st.workRegsLen + 1 }

/-- `RATiedBuilder::add` (rabuilders_p.h:72-108).  Note the duplicated
comparand in the precolored test — the source reads
`rPhysId != kAnyReg || rPhysId != kAnyReg` — which is kept verbatim here. -/
def RATiedBuilder.add (st : RATiedBuilderState)
    (vRegId kind flags allocable rPhysId wPhysId : Nat) (alloc : Bool) :
    Except RAError RATiedBuilderState :=
  let tReg := st.tiedOf vRegId
  let regStats := makeUsed st.regStats kind
  let regStats :=
    if rPhysId ≠ kAnyReg ∨ rPhysId ≠ kAnyReg then makePrecolored regStats kind
    else regStats
  match tReg with
  | none =>
    match addToWorkRegs { st with regStats := regStats } vRegId alloc with
    | .error e => .error e
    | .ok st1 =>
      .ok { st1 with
        tmp := st1.tmp ++ [TiedReg.init vRegId flags allocable rPhysId wPhysId]
        tiedOf := fun v => if v = vRegId then some st1.tmp.length else st1.tiedOf v }
  | some idx =>
    let t := (st.tmp.get? idx).getD ⟨0, 0, 0, 0, 0, 0⟩
    match (if wPhysId ≠ kAnyReg then
            (if t.wPhysId ≠ kAnyReg then Except.error RAError.overlappedRegs
             else Except.ok { t with wPhysId := wPhysId % 256 })
           else Except.ok t) with
    | .error e => .error e
    | .ok t1 =>
      .ok { st with
        regStats := regStats
        tmp := st.tmp.set idx
          { t1 with
            refCount := (t1.refCount + 1) % 256
            flags := t1.flags ||| flags
            allocableRegs := t1.allocableRegs &&& allocable } }

/-- Check whether an `add` call failed with `OverlappedRegs`. -/
def isOverlapped (r : Except RAError RATiedBuilderState) : Bool :=
  match r with
  | .error .overlappedRegs => true
  | _ => false

/-- The builder's `regStats` after a fallible `add`, or `none` on error. -/
def statsAfter (r : Except RAError RATiedBuilderState) : Option Nat :=
  match r with
  | .ok st => some st.regStats
  | .error _ => none

/-- The builder's `tmp` buffer after a fallible `add`, or `none` on error. -/
def tmpAfter (r : Except RAError RATiedBuilderState) : Option (List TiedReg) :=
  match r with
  | .ok st => some st.tmp
  | .error _ => none

/-- Builder state after one `add` for virtual register 7 with a fixed write
physical id 1 (first mention); used by the C2 counterexample and witness. -/
def c2FirstState : RATiedBuilderState :=
  match RATiedBuilder.add RATiedBuilder.reset 7 0 1 15 255 1 true with
  | .ok st => st
  | .error _ => RATiedBuilder.reset

/-- C2 counterexample. With the tied entry for virtual register 7 carrying
`wPhysId = 1`, a second `add` for the same register with the identical
incoming `wPhysId = 1` fails with `OverlappedRegs`, although the two fixed
write ids are both set and EQUAL — the source (rabuilders_p.h:97-99) rejects
whenever both are set, without comparing them, so "set and differ" is not the
failure condition. -/
theorem tiedbuilder_add_overlap_counterexample :
    (c2FirstState.tmp.get? 0).map TiedReg.wPhysId = some 1 ∧
    isOverlapped (RATiedBuilder.add c2FirstState 7 0 2 15 255 1 true) = true := by
  constructor
  · rfl
  · rfl

/-- C2 amended. A call to `RATiedBuilder::add` on a virtual register that
already has a tied entry `t` at the same instruction fails with
`OverlappedRegs` if and only if both the existing `t.wPhysId` and the incoming
`wPhysId` are set (not `kAnyReg`) — whether or not they differ; otherwise it
succeeds, adopting the incoming `wPhysId` when it is the one that is set,
incrementing the ref-count, OR-ing the flags, and AND-ing the allocable
mask. -/
theorem tiedbuilder_add_merge (st : RATiedBuilderState)
    (vRegId kind flags allocable rPhysId wPhysId idx : Nat) (t : TiedReg)
    (alloc : Bool)
    (hidx : st.tiedOf vRegId = some idx) (ht : st.tmp.get? idx = some t)
    (hrc : t.refCount < 255) (hw : wPhysId < 256) :
    (RATiedBuilder.add st vRegId kind flags allocable rPhysId wPhysId alloc
        = .error .overlappedRegs ↔ (wPhysId ≠ kAnyReg ∧ t.wPhysId ≠ kAnyReg)) ∧
    ((wPhysId = kAnyReg ∨ t.wPhysId = kAnyReg) →
      ∃ st', RATiedBuilder.add st vRegId kind flags allocable rPhysId wPhysId alloc
          = .ok st' ∧
        st'.tmp = st.tmp.set idx
          { vRegId := t.vRegId
            flags := t.flags ||| flags
            allocableRegs := t.allocableRegs &&& allocable
            refCount := t.refCount + 1
            rPhysId := t.rPhysId
            wPhysId := if wPhysId ≠ kAnyReg then wPhysId else t.wPhysId }) := by
  have hrc1 : (t.refCount + 1) % 256 = t.refCount + 1 :=
    Nat.mod_eq_of_lt (by omega)
  have hw1 : wPhysId % 256 = wPhysId := Nat.mod_eq_of_lt (by omega)
  unfold RATiedBuilder.add
  rw [hidx]
  simp only [ht, Option.getD_some]
  by_cases hwp : wPhysId = kAnyReg
  · subst hwp
    simp only [ne_eq, not_true_eq_false, if_false, ite_false]
    constructor
    · simp
    · intro _
      exact ⟨_, rfl, by rw [hrc1]⟩
  · by_cases htwp : t.wPhysId = kAnyReg
    · rw [if_pos (by simpa using hwp), if_neg (by simpa using htwp)]
      constructor
      · simp [hwp, htwp]
      · intro _
        refine ⟨_, rfl, ?_⟩
        simp [hwp, hw1, hrc1]
    · rw [if_pos (by simpa using hwp), if_pos (by simpa using htwp)]
      constructor
      · simp [hwp, htwp]
      · intro h
        rcases h with h | h
        · exact absurd h hwp
        · exact absurd h htwp

/-- Witness for C2 amended at concrete input: merging a second mention of
virtual register 7 (no incoming fixed write id) with its existing tied entry
succeeds and produces the merged entry. -/
theorem tiedbuilder_add_merge_witness :
    ∃ st', RATiedBuilder.add c2FirstState 7 0 2 15 255 255 true = .ok st' ∧
      st'.tmp = c2FirstState.tmp.set 0
        { vRegId := 7
          flags := 1 ||| 2
          allocableRegs := 15 &&& 15
          refCount := 1 + 1
          rPhysId := 255
          wPhysId := if (255 : Nat) ≠ kAnyReg then 255 else 1 } :=
  (tiedbuilder_add_merge c2FirstState 7 0 2 15 255 255 0
      ⟨7, 1, 15, 1, 255, 1⟩ true (by rfl) (by rfl) (by decide) (by decide)).2
    (Or.inl rfl)

/-- C3. The source raises the precolored bit only when the fixed READ id is
set: the test at rabuilders_p.h:77 reads `rPhysId != kAnyReg || rPhysId !=
kAnyReg` (the same comparand twice) where the spec's intended condition is
`rPhysId != kAnyReg || wPhysId != kAnyReg`.  Evaluating the code at the
failing input — no fixed read id (`rPhysId = kAnyReg`), fixed write id 0 —
shows the used bit raised but the precolored bit NOT raised for the
register's kind. -/
theorem tiedbuilder_add_precolored_not_raised :
    (statsAfter (RATiedBuilder.add RATiedBuilder.reset 7 0 2 15 255 0 true)).map
        (fun s => hasPrecolored s 0) = some false ∧
    (statsAfter (RATiedBuilder.add RATiedBuilder.reset 7 0 2 15 255 0 true)).map
        (fun s => hasUsed s 0) = some true ∧
    (statsAfter (RATiedBuilder.add RATiedBuilder.reset 7 0 2 15 3 255 true)).map
        (fun s => hasPrecolored s 0) = some true := by
  refine ⟨by rfl, by rfl, by rfl⟩

/-! ### Label-merge rule: `RAPass::newBlockOrMergeWith`

`RAPass::newBlockOrMergeWith` (rapass.cpp:155-209) walks the `prev` chain of a
jump-target label.  The chain is modelled as the list of nodes before the
label, nearest first; a label node carries its current block assignment
(`CBLabel::getBlock`), so retroactive assignment updates the chain in place.
The `first`/`last` bookkeeping of the freshly created block (rapass.cpp:203-
206) concerns fields no claim refers to and is not modelled. -/

/-- Modelled from the spec: the node type tags (`CBNode::kNodeLabel`,
`kNodeAlign`, `kNodeComment`, instruction-class nodes, ...) are declared in
codebuilder.h, which is not among the sources; the spec's data model lists
them as distinct tags.  Only the distinctions the walk makes are needed:
labels (with their block assignment), align nodes, comment nodes, and
everything else (code). -/
inductive WalkNode where
  | label (lid : Nat) (blk : Option Nat)
  | align
  | comment
  | code
deriving DecidableEq, Repr

/-- First loop of `newBlockOrMergeWith` (rapass.cpp:163-179): walk backwards
counting labels without a block; stop with that label's block at the first
label that has one; `kNodeAlign` is skipped; ANY other node type (including
comments) terminates the walk.  Returns the found block (if any) and
`nPendingLabels`. -/
def findPriorLabelBlock : List WalkNode → Nat → Option Nat × Nat
  | [], n => (none, n)
  | .label _ (some b) :: _, n => (some b, n)
  | .label _ none :: rest, n => findPriorLabelBlock rest (n + 1)
  | .align :: rest, n => findPriorLabelBlock rest n
  | _, n => (none, n)

/-- Second loop of `newBlockOrMergeWith` (rapass.cpp:189-201): walking
backwards from the label again, assign `blk` to each label encountered until
`nPending` labels have been assigned. -/
def assignPending : List WalkNode → Nat → Nat → List WalkNode
  | chain, _, 0 => chain
  | [], _, _ + 1 => []
  | .label lid _ :: rest, blk, n + 1 => .label lid (some blk) :: assignPending rest blk n
  | other :: rest, blk, n + 1 => other :: assignPending rest blk (n + 1)

/-- `RAPass::newBlockOrMergeWith` for a label whose own block assignment is
`labelBlk` and whose backward chain is `prevs`; `freshId` is the id the next
`newBlock()` call would produce.  Returns the block assigned to the label and
the updated chain. -/
def newBlockOrMergeWith (labelBlk : Option Nat) (prevs : List WalkNode)
    (freshId : Nat) : Nat × List WalkNode :=
  match labelBlk with
  | some b => (b, prevs)
  | none =>
    let r := findPriorLabelBlock prevs 0
    let blk := r.1.getD freshId
    (blk, assignPending prevs blk r.2)

/-- The walk as the claim describes it: this variant follows the claim's words
— "walks backwards through only labels and align/comment-class nodes" — i.e.
it also skips comment nodes instead of stopping at them.  Defined only to be
compared against `findPriorLabelBlock`, which is translated from the
source. -/
def findPriorLabelBlockClaim : List WalkNode → Nat → Option Nat × Nat
  | [], n => (none, n)
  | .label _ (some b) :: _, n => (some b, n)
  | .label _ none :: rest, n => findPriorLabelBlockClaim rest (n + 1)
  | .align :: rest, n => findPriorLabelBlockClaim rest n
  | .comment :: rest, n => findPriorLabelBlockClaim rest n
  | _, n => (none, n)

/-- The claim's variant of `newBlockOrMergeWith`. -/
def newBlockOrMergeWithClaim (labelBlk : Option Nat) (prevs : List WalkNode)
    (freshId : Nat) : Nat × List WalkNode :=
  match labelBlk with
  | some b => (b, prevs)
  | none =>
    let r := findPriorLabelBlockClaim prevs 0
    let blk := r.1.getD freshId
    (blk, assignPending prevs blk r.2)

/-- C4 counterexample. A jump-target label preceded by a comment node which is
preceded by a label already assigned to block 7: the source's walk stops at
the comment and creates a fresh block (42), whereas the claim's walk — which
passes through "align/comment-class" nodes — would reuse block 7.  Comments
terminate the walk; only labels and align nodes are walked through. -/
theorem newBlockOrMergeWith_comment_counterexample :
    (newBlockOrMergeWith none [.comment, .label 0 (some 7)] 42).1 = 42 ∧
    (newBlockOrMergeWithClaim none [.comment, .label 0 (some 7)] 42).1 = 7 ∧
    (42 : Nat) ≠ 7 := by
  refine ⟨by rfl, by rfl, by decide⟩

/-- A chain prefix the source's walk passes through: only unassigned labels
and align nodes. -/
def walkable : WalkNode → Prop
  | .label _ none => True
  | .align => True
  | _ => False

/-- Number of labels in a chain segment. -/
def labelCount (l : List WalkNode) : Nat :=
  l.countP (fun n => match n with | .label _ _ => true | _ => false)

/-- Every label of the segment is assigned block `b`, and non-label nodes are
unchanged. -/
def assignAll (b : Nat) : List WalkNode → List WalkNode :=
  List.map (fun n => match n with
    | .label lid _ => .label lid (some b)
    | other => other)

theorem findPriorLabelBlock_through (ls : List WalkNode) (lid : Nat) (b : Nat)
    (rest : List WalkNode) (hw : ∀ n ∈ ls, walkable n) (k : Nat) :
    findPriorLabelBlock (ls ++ .label lid (some b) :: rest) k =
      (some b, k + labelCount ls) := by
  induction ls generalizing k with
  | nil => simp [findPriorLabelBlock, labelCount]
  | cons n ls ih =>
      have hn : walkable n := hw n (List.mem_cons_self n ls)
      have hls : ∀ m ∈ ls, walkable m := fun m hm => hw m (List.mem_cons_of_mem n hm)
      cases n with
      | label lid2 blk =>
          cases blk with
          | none =>
              rw [List.cons_append]
              show findPriorLabelBlock (ls ++ _ :: rest) (k + 1) = _
              rw [ih hls (k + 1)]
              simp [labelCount, List.countP_cons]
              omega
          | some b2 => exact absurd hn (by simp [walkable])
      | align =>
          rw [List.cons_append]
          show findPriorLabelBlock (ls ++ _ :: rest) k = _
          rw [ih hls k]
          simp [labelCount, List.countP_cons]
      | comment => exact absurd hn (by simp [walkable])
      | code => exact absurd hn (by simp [walkable])

theorem assignAll_of_no_labels (blk : Nat) : ∀ ls : List WalkNode,
    labelCount ls = 0 → assignAll blk ls = ls
  | [], _ => rfl
  | n :: ls, h => by
      cases n with
      | label lid b0 =>
          exfalso
          simp [labelCount, List.countP_cons] at h
      | align =>
          have h2 : labelCount ls = 0 := by
            simpa [labelCount, List.countP_cons] using h
          show WalkNode.align :: assignAll blk ls = _
          rw [assignAll_of_no_labels blk ls h2]
      | comment =>
          have h2 : labelCount ls = 0 := by
            simpa [labelCount, List.countP_cons] using h
          show WalkNode.comment :: assignAll blk ls = _
          rw [assignAll_of_no_labels blk ls h2]
      | code =>
          have h2 : labelCount ls = 0 := by
            simpa [labelCount, List.countP_cons] using h
          show WalkNode.code :: assignAll blk ls = _
          rw [assignAll_of_no_labels blk ls h2]

theorem assignPending_through (ls : List WalkNode) (blk : Nat)
    (tail : List WalkNode) :
    assignPending (ls ++ tail) blk (labelCount ls) = assignAll blk ls ++ tail := by
  induction ls with
  | nil => simp [labelCount, assignPending, assignAll]
  | cons n ls ih =>
      cases n with
      | label lid b0 =>
          have hl : labelCount (WalkNode.label lid b0 :: ls) = labelCount ls + 1 := by
            simp [labelCount, List.countP_cons]
          rw [hl, List.cons_append]
          show WalkNode.label lid (some blk) :: assignPending (ls ++ tail) blk (labelCount ls)
              = _
          rw [ih]
          rfl
      | align =>
          have hl : labelCount (WalkNode.align :: ls) = labelCount ls := by
            simp [labelCount, List.countP_cons]
          rw [hl, List.cons_append]
          cases h : labelCount ls with
          | zero =>
              show WalkNode.align :: (ls ++ tail) = assignAll blk (WalkNode.align :: ls) ++ tail
              have ha : assignAll blk (WalkNode.align :: ls) = WalkNode.align :: ls := by
                show WalkNode.align :: assignAll blk ls = _
                rw [assignAll_of_no_labels blk ls h]
              rw [ha, List.cons_append]
          | succ m =>
              show WalkNode.align :: assignPending (ls ++ tail) blk (m + 1) = _
              rw [← h, ih]
              rfl
      | comment =>
          have hl : labelCount (WalkNode.comment :: ls) = labelCount ls := by
            simp [labelCount, List.countP_cons]
          rw [hl, List.cons_append]
          cases h : labelCount ls with
          | zero =>
              show WalkNode.comment :: (ls ++ tail) = assignAll blk (WalkNode.comment :: ls) ++ tail
              have ha : assignAll blk (WalkNode.comment :: ls) = WalkNode.comment :: ls := by
                show WalkNode.comment :: assignAll blk ls = _
                rw [assignAll_of_no_labels blk ls h]
              rw [ha, List.cons_append]
          | succ m =>
              show WalkNode.comment :: assignPending (ls ++ tail) blk (m + 1) = _
              rw [← h, ih]
              rfl
      | code =>
          have hl : labelCount (WalkNode.code :: ls) = labelCount ls := by
            simp [labelCount, List.countP_cons]
          rw [hl, List.cons_append]
          cases h : labelCount ls with
          | zero =>
              show WalkNode.code :: (ls ++ tail) = assignAll blk (WalkNode.code :: ls) ++ tail
              have ha : assignAll blk (WalkNode.code :: ls) = WalkNode.code :: ls := by
                show WalkNode.code :: assignAll blk ls = _
                rw [assignAll_of_no_labels blk ls h]
              rw [ha, List.cons_append]
          | succ m =>
              show WalkNode.code :: assignPending (ls ++ tail) blk (m + 1) = _
              rw [← h, ih]
              rfl

/-- When the walked-through prefix ends at a stopping node (or at the start of
the node list), no block is found and the pending count is the number of
walked labels. -/
theorem findPriorLabelBlock_none (ls : List WalkNode) (tail : List WalkNode)
    (hw : ∀ n ∈ ls, walkable n)
    (htail : tail = [] ∨ ∃ n rest, tail = n :: rest ∧ (n = .comment ∨ n = .code))
    (k : Nat) :
    findPriorLabelBlock (ls ++ tail) k = (none, k + labelCount ls) := by
  induction ls generalizing k with
  | nil =>
      rcases htail with h | ⟨n, rest, h, hn⟩
      · subst h; simp [findPriorLabelBlock, labelCount]
      · subst h
        rcases hn with h | h <;> subst h <;> simp [findPriorLabelBlock, labelCount]
  | cons n ls ih =>
      have hn : walkable n := hw n (List.mem_cons_self n ls)
      have hls : ∀ m ∈ ls, walkable m := fun m hm => hw m (List.mem_cons_of_mem n hm)
      cases n with
      | label lid2 blk =>
          cases blk with
          | none =>
              rw [List.cons_append]
              show findPriorLabelBlock (ls ++ tail) (k + 1) = _
              rw [ih hls (k + 1)]
              simp [labelCount, List.countP_cons]
              omega
          | some b2 => exact absurd hn (by simp [walkable])
      | align =>
          rw [List.cons_append]
          show findPriorLabelBlock (ls ++ tail) k = _
          rw [ih hls k]
          simp [labelCount, List.countP_cons]
      | comment => exact absurd hn (by simp [walkable])
      | code => exact absurd hn (by simp [walkable])

/-- C4 amended. For a jump-target label with no block assigned yet,
`newBlockOrMergeWith` walks backwards through only labels and ALIGN nodes,
stopping at any other node (comments included); if a label with an assigned
block is found, that block is reused and retroactively assigned to every
intervening label, so consecutive labels (possibly separated by align nodes)
share one block; if the walk stops before finding an assigned label, a fresh
block is created instead, and it is likewise assigned to every walked
label. -/
theorem newBlockOrMergeWith_merge (ls : List WalkNode) (lid b freshId : Nat)
    (rest : List WalkNode) (hw : ∀ n ∈ ls, walkable n) :
    (newBlockOrMergeWith none (ls ++ .label lid (some b) :: rest) freshId =
      (b, assignAll b ls ++ .label lid (some b) :: rest)) ∧
    (∀ stopNode tail, (stopNode = .comment ∨ stopNode = .code) →
      newBlockOrMergeWith none (ls ++ stopNode :: tail) freshId =
        (freshId, assignAll freshId ls ++ stopNode :: tail)) ∧
    (newBlockOrMergeWith none ls freshId = (freshId, assignAll freshId ls)) := by
  refine ⟨?_, ?_, ?_⟩
  · unfold newBlockOrMergeWith
    rw [findPriorLabelBlock_through ls lid b rest hw 0]
    simp only [Option.getD_some, Nat.zero_add]
    rw [assignPending_through ls b (.label lid (some b) :: rest)]
  · intro stopNode tail hstop
    unfold newBlockOrMergeWith
    rw [findPriorLabelBlock_none ls (stopNode :: tail) hw
      (Or.inr ⟨stopNode, tail, rfl, hstop⟩) 0]
    simp only [Option.getD_none, Nat.zero_add]
    rw [assignPending_through ls freshId (stopNode :: tail)]
  · unfold newBlockOrMergeWith
    rw [show ls = ls ++ [] by simp,
      findPriorLabelBlock_none ls [] (by simpa using hw) (Or.inl rfl) 0]
    simp only [Option.getD_none, Nat.zero_add]
    rw [assignPending_through ls freshId []]
    simp

/-- Witness for C4 amended at concrete input: label chain
`[align, label 3 (unassigned), label 5 (assigned to block 9), code]` — the
walk passes the align node and the pending label, reuses block 9, and
assigns block 9 to the pending label 3. -/
theorem newBlockOrMergeWith_merge_witness :
    newBlockOrMergeWith none
        [.align, .label 3 none, .label 5 (some 9), .code] 42 =
      (9, [.align, .label 3 (some 9), .label 5 (some 9), .code]) :=
  (newBlockOrMergeWith_merge [.align, .label 3 none] 5 9 42 [.code]
    (by intro n hn; fin_cases hn <;> simp [walkable])).1

/-! ### Dominance queries

`RAPass::_strictlyDominates` (rapass.cpp:217-234) and the inline wrappers
`strictlyDominates` / `dominates` (rapass_p.h:1048-1058).  The query context
is the entry block id and the blocks' `_idom` assignment.  The idom-chain walk
of the source is a `while` loop with no termination guarantee on arbitrary
idom assignments, so it takes fuel; exhausted fuel yields `none` (the C loop
would not have returned). -/

structure DomCtx where
  entry : Nat
  idom : Nat → Nat

/-- The `while (iDom != a && iDom != entryBlock) iDom = iDom->getIDom();` loop
of `_strictlyDominates`, returning the block at which the walk stops. -/
def chaseIDom (ctx : DomCtx) (a : Nat) : Nat → Nat → Option Nat
  | 0, _ => none
  | fuel + 1, i =>
      if i = a ∨ i = ctx.entry then some i
      else chaseIDom ctx a fuel (ctx.idom i)

/-- `RAPass::_strictlyDominates(a, b)` (rapass.cpp:217-234); the early exit
`if (a == entryBlock) return false;` comes before the chain walk. -/
def strictlyDominatesAux (ctx : DomCtx) (a b : Nat) (fuel : Nat) : Option Bool :=
  if a = ctx.entry then some false
  else (chaseIDom ctx a fuel (ctx.idom b)).map (fun i => decide (i ≠ ctx.entry))

/-- `RAPass::strictlyDominates` (rapass_p.h:1048-1051). -/
def strictlyDominates (ctx : DomCtx) (a b : Nat) (fuel : Nat) : Option Bool :=
  if a = b then some false else strictlyDominatesAux ctx a b fuel

/-- `RAPass::dominates` (rapass_p.h:1055-1058). -/
def dominates (ctx : DomCtx) (a b : Nat) (fuel : Nat) : Option Bool :=
  if a = b then some true else strictlyDominatesAux ctx a b fuel

/-- A path through the CFG along successor edges (used only to state that the
entry block dominates every reachable block in the graph-theoretic sense). -/
inductive IsPath (succ : Nat → List Nat) : Nat → List Nat → Nat → Prop where
  | single (a : Nat) : IsPath succ a [a] a
  | cons (a b c : Nat) (p : List Nat) (hab : b ∈ succ a)
      (hp : IsPath succ b p c) : IsPath succ a (a :: p) c

theorem IsPath.head_mem (succ : Nat → List Nat) (a : Nat) (p : List Nat)
    (c : Nat) (h : IsPath succ a p c) : a ∈ p := by
  cases h with
  | single _ => exact List.mem_singleton_self a
  | cons _ b _ q hab hp => exact List.mem_cons_self a q

/-- C10. For every block `b` distinct from the entry block, the query
`strictlyDominates(entry, b)` returns `false` — the early-exit branch of
`_strictlyDominates` treats the entry block as strictly dominating nothing —
and hence `dominates(entry, b)` returns `false` as well, for every idom
assignment and every fuel; yet by the path definition of dominance the entry
block dominates every block reachable from it (trivially, since every path
from the entry contains the entry). -/
theorem entry_dominates_nothing (ctx : DomCtx) (b : Nat) (fuel : Nat)
    (hne : b ≠ ctx.entry) :
    strictlyDominates ctx ctx.entry b fuel = some false ∧
    dominates ctx ctx.entry b fuel = some false ∧
    (∀ (succ : Nat → List Nat) (p : List Nat),
      IsPath succ ctx.entry p b → ctx.entry ∈ p) := by
  refine ⟨?_, ?_, ?_⟩
  · unfold strictlyDominates strictlyDominatesAux
    rw [if_neg (Ne.symm hne), if_pos rfl]
  · unfold dominates strictlyDominatesAux
    rw [if_neg (Ne.symm hne), if_pos rfl]
  · intro succ p hp
    exact IsPath.head_mem succ ctx.entry p b hp

/-- Witness for C10 at concrete input: entry block 0, query block 1, an idom
map sending every block to 0. -/
theorem entry_dominates_nothing_witness :
    strictlyDominates ⟨0, fun _ => 0⟩ 0 1 5 = some false ∧
    dominates ⟨0, fun _ => 0⟩ 0 1 5 = some false ∧
    (∀ (succ : Nat → List Nat) (p : List Nat),
      IsPath succ (0 : Nat) p 1 → (0 : Nat) ∈ p) :=
  entry_dominates_nothing ⟨0, fun _ => 0⟩ 1 5 (by decide)

/-! ### Virtual-register scratch-field cleanup on every return path

`RAPass::runOnFunction` (rapass.cpp:333-399) runs the five construction steps
inside a `for (;;)` used purely for error handling; whatever `err` is, the
function then calls `RAPass_resetVirtRegData` (rapass.cpp:318-331), resets
the pass, and resets the passed `Zone`.

The pass mutates virtual-register scratch state only through
`RAPass::_addToWorkRegs` (rapass.cpp:122, sets `_workReg` and registers the
virtual register in `_workRegs`), `RATiedBuilder::add` (rabuilders_p.h:87,
sets `_tiedReg`, after `addToWorkRegs` has succeeded on the same register),
and `RATiedBuilder::storeTo` (rabuilders_p.h:128, clears `_tiedReg` of
registers that are in `_workRegs`); nothing in the pass sets `_stackSlot`.
A run of the pass is therefore modelled as an arbitrary sequence of these
events, cut off at an arbitrary point (the first error); the cleanup is then
applied unconditionally, as in the source. -/

/-- Scratch fields of one `VirtReg` (codecompiler.h:187-189): `_tiedReg`,
`_workReg`, `_stackSlot`. -/
structure VRegScratch where
  tiedReg : Option Nat
  workReg : Option Nat
  stackSlot : Option Nat
deriving DecidableEq, Repr

/-- Pass-visible state for C8: each virtual register's scratch fields, the
`_workRegs` vector (as the list of registered virtual-register ids), and
whether the zone has been reset. -/
structure PassState where
  vregs : List VRegScratch
  workRegs : List Nat
  zoneWasReset : Bool
deriving DecidableEq, Repr

/-- Mutations of virtual-register scratch state performed during the pass
steps (see the section comment for the source points). -/
inductive PassEvent where
  | addWork (v : Nat)
  | builderAdd (v t : Nat)
  | storeClear (v : Nat)
deriving DecidableEq, Repr

/-- Update the scratch record of virtual register `v`. -/
def updateVReg (st : PassState) (v : Nat) (f : VRegScratch → VRegScratch) :
    PassState :=
  match st.vregs.get? v with
  | none => st
  | some r => { st with vregs := st.vregs.set v (f r) }

/-- `RAPass::addToWorkRegs`: only acts when the register has no work register
yet; then assigns one and appends the register to `_workRegs`. -/
def applyAddWork (st : PassState) (v : Nat) : PassState :=
  match st.vregs.get? v with
  | none => st
  | some r =>
    match r.workReg with
    | some _ => st
    | none =>
      { st with
        vregs := st.vregs.set v { r with workReg := some st.workRegs.length }
        workRegs := st.workRegs ++ [v] }

/-- One pass event.  `builderAdd` performs `addToWorkRegs` first and then sets
`_tiedReg`, exactly as `RATiedBuilder::add` does on a first mention;
`storeClear` is `vReg->resetTiedReg()` from `storeTo`. -/
def applyPassEvent (st : PassState) : PassEvent → PassState
  | .addWork v => applyAddWork st v
  | .builderAdd v t => updateVReg (applyAddWork st v) v (fun r => { r with tiedReg := some t })
  | .storeClear v => updateVReg st v (fun r => { r with tiedReg := none })

/-- Run a prefix of the pass (the prefix models a run cut short by the first
error, or the whole run on success). -/
def runPassEvents (st : PassState) (evs : List PassEvent) : PassState :=
  evs.foldl applyPassEvent st

/-- One step of `RAPass_resetVirtRegData` (rapass.cpp:322-330): null the
scratch record of one registered virtual register. -/
def clearOne (vs : List VRegScratch) (v : Nat) : List VRegScratch :=
  match vs.get? v with
  | none => vs
  | some _ => vs.set v ⟨none, none, none⟩

/-- `RAPass_resetVirtRegData` (rapass.cpp:318-331): null the scratch records
of every virtual register registered in `_workRegs`. -/
def clearWorkRegs (ws : List Nat) (vs : List VRegScratch) : List VRegScratch :=
  ws.foldl clearOne vs

/-- The unconditional epilogue of `runOnFunction` (rapass.cpp:375-397):
`RAPass_resetVirtRegData` followed by `zone->reset()`; it runs whatever the
error status of the construction steps was. -/
def runOnFunctionCleanup (st : PassState) : PassState :=
  { vregs := clearWorkRegs st.workRegs st.vregs
    workRegs := st.workRegs
    zoneWasReset := true }

/-- All three scratch fields of every virtual register are null. -/
def AllScratchNull (st : PassState) : Prop :=
  ∀ r ∈ st.vregs, r = ⟨none, none, none⟩

/-- Any virtual register with a non-null scratch field is registered in
`_workRegs` — the invariant that makes `RAPass_resetVirtRegData` (which walks
only `_workRegs`) sufficient. -/
def ScratchInv (st : PassState) : Prop :=
  ∀ v r, st.vregs.get? v = some r → r ≠ ⟨none, none, none⟩ → v ∈ st.workRegs

theorem applyAddWork_of_get_none (st : PassState) (v : Nat)
    (hv : st.vregs.get? v = none) : applyAddWork st v = st := by
  unfold applyAddWork
  simp only [hv]

theorem applyAddWork_of_work_some (st : PassState) (v w : Nat) (r : VRegScratch)
    (hv : st.vregs.get? v = some r) (hw : r.workReg = some w) :
    applyAddWork st v = st := by
  unfold applyAddWork
  simp only [hv, hw]

theorem applyAddWork_of_work_none (st : PassState) (v : Nat) (r : VRegScratch)
    (hv : st.vregs.get? v = some r) (hw : r.workReg = none) :
    applyAddWork st v =
      { st with
        vregs := st.vregs.set v { r with workReg := some st.workRegs.length }
        workRegs := st.workRegs ++ [v] } := by
  unfold applyAddWork
  simp only [hv, hw]

theorem updateVReg_of_get_none (st : PassState) (v : Nat)
    (f : VRegScratch → VRegScratch) (hv : st.vregs.get? v = none) :
    updateVReg st v f = st := by
  unfold updateVReg
  simp only [hv]

theorem updateVReg_of_get_some (st : PassState) (v : Nat)
    (f : VRegScratch → VRegScratch) (r : VRegScratch)
    (hv : st.vregs.get? v = some r) :
    updateVReg st v f = { st with vregs := st.vregs.set v (f r) } := by
  unfold updateVReg
  simp only [hv]

theorem applyAddWork_inv (st : PassState) (v : Nat) (h : ScratchInv st) :
    ScratchInv (applyAddWork st v) ∧ st.workRegs ⊆ (applyAddWork st v).workRegs := by
  cases hv : st.vregs.get? v with
  | none =>
      rw [applyAddWork_of_get_none st v hv]
      exact ⟨h, fun x hx => hx⟩
  | some r =>
    cases hw : r.workReg with
    | some w =>
        rw [applyAddWork_of_work_some st v w r hv hw]
        exact ⟨h, fun x hx => hx⟩
    | none =>
      rw [applyAddWork_of_work_none st v r hv hw]
      constructor
      · intro u ru hu hne
        by_cases huv : u = v
        · subst huv
          simp [List.mem_append]
        · rw [List.get?_set_ne _ _ (fun e => huv e.symm)] at hu
          exact List.mem_append_left _ (h u ru hu hne)
      · intro x hx
        exact List.mem_append_left _ hx

theorem applyAddWork_registered (st : PassState) (v : Nat) (r : VRegScratch)
    (hv : st.vregs.get? v = some r) (h : ScratchInv st) :
    v ∈ (applyAddWork st v).workRegs := by
  cases hw : r.workReg with
  | some w =>
      rw [applyAddWork_of_work_some st v w r hv hw]
      exact h v r hv (by
        intro e
        rw [e] at hw
        cases hw)
  | none =>
      rw [applyAddWork_of_work_none st v r hv hw]
      simp [List.mem_append]

theorem updateVReg_inv (st : PassState) (v : Nat) (f : VRegScratch → VRegScratch)
    (h : ScratchInv st)
    (hf : ∀ r, f r ≠ ⟨none, none, none⟩ → (r ≠ ⟨none, none, none⟩ ∨ v ∈ st.workRegs)) :
    ScratchInv (updateVReg st v f) := by
  cases hv : st.vregs.get? v with
  | none =>
      rw [updateVReg_of_get_none st v f hv]
      exact h
  | some r =>
    rw [updateVReg_of_get_some st v f r hv]
    intro u ru hu hne
    by_cases huv : u = v
    · subst huv
      have hlt : u < st.vregs.length := by
        rcases List.get?_eq_some.mp hv with ⟨hlt, _⟩
        exact hlt
      rw [List.get?_set_eq_of_lt _ hlt] at hu
      cases hu
      rcases hf r hne with h1 | h1
      · exact h u r hv h1
      · exact h1
    · rw [List.get?_set_ne _ _ (fun e => huv e.symm)] at hu
      exact h u ru hu hne

theorem applyPassEvent_inv (st : PassState) (ev : PassEvent) (h : ScratchInv st) :
    ScratchInv (applyPassEvent st ev) := by
  cases ev with
  | addWork v => exact (applyAddWork_inv st v h).1
  | builderAdd v t =>
      have h1 := (applyAddWork_inv st v h).1
      show ScratchInv (updateVReg (applyAddWork st v) v _)
      cases hv2 : (applyAddWork st v).vregs.get? v with
      | none =>
          rw [updateVReg_of_get_none _ v _ hv2]
          exact h1
      | some r2 =>
        have hvpre : ∃ r, st.vregs.get? v = some r := by
          cases hv : st.vregs.get? v with
          | none =>
              rw [applyAddWork_of_get_none st v hv] at hv2
              rw [hv] at hv2
              cases hv2
          | some r => exact ⟨r, rfl⟩
        rcases hvpre with ⟨r, hv⟩
        apply updateVReg_inv _ v _ h1
        intro r0 _
        exact Or.inr (applyAddWork_registered st v r hv h)
  | storeClear v =>
      apply updateVReg_inv _ v _ h
      intro r hne
      left
      intro hr
      apply hne
      rw [hr]

theorem runPassEvents_inv (st : PassState) (evs : List PassEvent)
    (h : ScratchInv st) : ScratchInv (runPassEvents st evs) := by
  induction evs generalizing st with
  | nil => exact h
  | cons ev evs ih => exact ih (applyPassEvent st ev) (applyPassEvent_inv st ev h)

theorem clearWorkRegs_cons (w : Nat) (ws : List Nat) (vs : List VRegScratch) :
    clearWorkRegs (w :: ws) vs = clearWorkRegs ws (clearOne vs w) := rfl

theorem clearOne_length (vs : List VRegScratch) (w : Nat) :
    (clearOne vs w).length = vs.length := by
  unfold clearOne
  split
  · rfl
  · simp

theorem clearOne_get_ne (vs : List VRegScratch) (w v : Nat) (h : v ≠ w) :
    (clearOne vs w).get? v = vs.get? v := by
  unfold clearOne
  split
  · rfl
  · exact List.get?_set_ne _ _ (fun e => h e.symm)

theorem clearWorkRegs_length (ws : List Nat) (vs : List VRegScratch) :
    (clearWorkRegs ws vs).length = vs.length := by
  induction ws generalizing vs with
  | nil => rfl
  | cons w ws ih =>
      rw [clearWorkRegs_cons, ih, clearOne_length]

theorem clearWorkRegs_get_not_mem (ws : List Nat) (vs : List VRegScratch)
    (v : Nat) (hv : v ∉ ws) : (clearWorkRegs ws vs).get? v = vs.get? v := by
  induction ws generalizing vs with
  | nil => rfl
  | cons w ws ih =>
      have hvw : v ≠ w := fun e => hv (e ▸ List.mem_cons_self w ws)
      have hv2 : v ∉ ws := fun e => hv (List.mem_cons_of_mem w e)
      rw [clearWorkRegs_cons, ih _ hv2, clearOne_get_ne vs w v hvw]

theorem clearWorkRegs_get_mem (ws : List Nat) (vs : List VRegScratch)
    (v : Nat) (hmem : v ∈ ws) (hlt : v < vs.length) :
    (clearWorkRegs ws vs).get? v = some ⟨none, none, none⟩ := by
  induction ws generalizing vs with
  | nil => cases hmem
  | cons w ws ih =>
      rw [clearWorkRegs_cons]
      by_cases hv2 : v ∈ ws
      · exact ih (clearOne vs w) hv2 (by rw [clearOne_length]; exact hlt)
      · have hvw : v = w := by
          rcases List.mem_cons.mp hmem with h | h
          · exact h
          · exact absurd h hv2
        subst hvw
        rw [clearWorkRegs_get_not_mem ws _ v hv2]
        unfold clearOne
        rw [List.get?_eq_get hlt]
        exact List.get?_set_eq_of_lt _ hlt

/-- C8. On every return path of `runOnFunction` — success or error, i.e. any
event prefix — provided the pass started with all scratch fields null (the
previous pass's guaranteed exit state), every virtual register ends with
`tiedReg`, `workReg` and `stackSlot` all null, and the zone has been reset. -/
theorem runOnFunction_clears_scratch (init : PassState) (evs : List PassEvent)
    (hinit : AllScratchNull init) :
    AllScratchNull (runOnFunctionCleanup (runPassEvents init evs)) ∧
    (runOnFunctionCleanup (runPassEvents init evs)).zoneWasReset = true := by
  constructor
  · have hinv : ScratchInv init := by
      intro v r hv hne
      exact absurd (hinit r (List.get?_mem hv)) hne
    have hinv2 : ScratchInv (runPassEvents init evs) := runPassEvents_inv init evs hinv
    set st := runPassEvents init evs with hst
    intro r hr
    have hr2 : r ∈ clearWorkRegs st.workRegs st.vregs := hr
    rcases List.get_of_mem hr2 with ⟨⟨v, hvlt⟩, hvget⟩
    have hget : (clearWorkRegs st.workRegs st.vregs).get? v = some r := by
      rw [List.get?_eq_get hvlt, hvget]
    by_cases hmem : v ∈ st.workRegs
    · have hlt : v < st.vregs.length := by
        rw [← clearWorkRegs_length st.workRegs st.vregs]
        exact hvlt
      rw [clearWorkRegs_get_mem st.workRegs st.vregs v hmem hlt] at hget
      cases hget
      rfl
    · rw [clearWorkRegs_get_not_mem st.workRegs st.vregs v hmem] at hget
      by_contra hne
      exact hmem (hinv2 v r hget hne)
  · rfl

/-- Witness for C8 at concrete input: two virtual registers, a run that
registers register 0 and ties it, then errors out (prefix ends); both
registers end all-null and the zone is reset. -/
theorem runOnFunction_clears_scratch_witness :
    AllScratchNull (runOnFunctionCleanup (runPassEvents
      ⟨[⟨none, none, none⟩, ⟨none, none, none⟩], [], false⟩
      [.builderAdd 0 3, .addWork 1])) ∧
    (runOnFunctionCleanup (runPassEvents
      ⟨[⟨none, none, none⟩, ⟨none, none, none⟩], [], false⟩
      [.builderAdd 0 3, .addWork 1])).zoneWasReset = true :=
  runOnFunction_clears_scratch
    ⟨[⟨none, none, none⟩, ⟨none, none, none⟩], [], false⟩
    [.builderAdd 0 3, .addWork 1]
    (by intro r hr; fin_cases hr <;> rfl)

/-! ### Liveness: `RAPass::constructLiveness` (rapass.cpp:631-762)

Bitmaps (`ZoneBitVector` / `LiveBits`) are modelled as `List Bool` indexed by
work id; the word-parallel `LiveOps` operate per bit with the same semantics,
and their "changed" result is equality of the before/after lists (the XOR
OR-fold of the source is nonzero exactly when some bit differs).  A block
carries its instruction list in program order (`getFirst()..getLast()`,
instruction-like nodes only, since the walk guards on `actsAsInst()`); each
instruction carries its tied array reduced to what the walk inspects: work id
and `isWriteOnly()`.

The `ZoneStack` work list (zone.h is not among the sources) is modelled from
the spec as a LIFO stack: `append` pushes onto the head of the list holding
the most recent element first, `pop` removes the head.  The fixpoint result
proved below does not depend on this order. -/

/-- What `constructLiveness` reads from one `TiedReg`: the work id of its
virtual register's work register, and `TiedReg::isWriteOnly()`. -/
structure RATiedRef where
  workId : Nat
  writeOnly : Bool
deriving DecidableEq, Repr

/-- An instruction-like node with its `RAData` tied array. -/
structure RAInst where
  tied : List RATiedRef
deriving DecidableEq, Repr

/-- An `RABlock` as seen by `constructLiveness`: instruction list, edges, the
four live bitmaps (rapass_p.h:528), the per-instruction liveness snapshots
written to each instruction's `RAData` (program order), and the
`kFlagHasLiveness` flag. -/
structure LiveBlock where
  insts : List RAInst
  succ : List Nat
  pred : List Nat
  gen : List Bool
  kill : List Bool
  liveIn : List Bool
  liveOut : List Bool
  snaps : List (List Bool)
  hasLiveness : Bool
deriving DecidableEq, Repr

/-- `ZoneBitVector::getAt` (false beyond the length). -/
def getBit (bs : List Bool) (i : Nat) : Bool := bs.getD i false

/-- `ZoneBitVector::setAt`. -/
def setBit (bs : List Bool) (i : Nat) (v : Bool) : List Bool := bs.set i v

/-- Effect of one tied entry in the GEN/KILL walk (rapass.cpp:675-691) on the
accumulator (gen, kill, running live): write-only sets KILL and clears the
live bit; any other role clears KILL, sets GEN and sets the live bit. -/
def applyTied (acc : List Bool × List Bool × List Bool) (t : RATiedRef) :
    List Bool × List Bool × List Bool :=
  if t.writeOnly then
    (acc.1, setBit acc.2.1 t.workId true, setBit acc.2.2 t.workId false)
  else
    (setBit acc.1 t.workId true, setBit acc.2.1 t.workId false, setBit acc.2.2 t.workId true)

/-- Result of walking one block's instructions. -/
structure WalkResult where
  gen : List Bool
  kill : List Bool
  live : List Bool
  snaps : List (List Bool)
deriving DecidableEq, Repr

/-- The backward instruction walk of one block (rapass.cpp:663-699), given the
instructions already in walk order (last instruction first): each instruction
first snapshots the running live set into its `RAData` (rapass.cpp:672-673,
before its own tied entries are applied), then applies its tied entries.
`snaps` is in walk order. -/
def walkInsts : List RAInst → List Bool → List Bool → List Bool → WalkResult
  | [], gen, kill, live => ⟨gen, kill, live, []⟩
  | i :: rest, gen, kill, live =>
    let snap := live
    let acc := i.tied.foldl applyTied (gen, kill, live)
    let r := walkInsts rest acc.1 acc.2.1 acc.2.2
    ⟨r.gen, r.kill, r.live, snap :: r.snaps⟩

/-- Processing of one block in phase 1 (rapass.cpp:654-700):
`resizeLiveBits(numWorkRegs)` turns the four (empty) bitmaps into all-false
bitmaps of width `W`; then the backward walk updates GEN/KILL and the shared
running live bitmap, which is threaded in and out (the source allocates
`liveness` once before the block loop and never clears it between blocks). -/
def processBlock (W : Nat) (blocks : List LiveBlock) (live : List Bool)
    (bid : Nat) : List LiveBlock × List Bool :=
  match blocks.get? bid with
  | none => (blocks, live)
  | some b =>
    let r := walkInsts b.insts.reverse (List.replicate W false)
      (List.replicate W false) live
    (blocks.set bid
      { b with
        gen := r.gen
        kill := r.kill
        liveIn := List.replicate W false
        liveOut := List.replicate W false
        snaps := r.snaps.reverse },
     r.live)

/-- Phase 1 (rapass.cpp:652-700): iterate the blocks of `order` (the POV from
last to first, i.e. reverse postorder), appending each to the work list
(stack, most recent first) and walking it; the running live bitmap `live`
(initialized to all-false once, before the loop) is threaded through. -/
def phase1Go (W : Nat) :
    List Nat → List LiveBlock → List Bool → List Nat →
    List LiveBlock × List Nat × List Bool
  | [], blocks, live, wl => (blocks, wl, live)
  | bid :: order, blocks, live, wl =>
    let r := processBlock W blocks live bid
    phase1Go W order r.1 r.2 (bid :: wl)

/-- `LiveOps::op<Or>` per bit. -/
def orBits (dst src : List Bool) : List Bool := List.zipWith (fun a b => a || b) dst src

/-- `LiveOps::LiveIn::op` per bit: `(out | gen) & ~kill` (rapass.cpp:581-583;
the destination word is ignored by the operator). -/
def liveInBits : List Bool → List Bool → List Bool → List Bool
  | o :: os, g :: gs, k :: ks => ((o || g) && !k) :: liveInBits os gs ks
  | _, _, _ => []

/-- The `IN` bitmap of block `s` ([] if `s` is out of range — unreachable
under the well-formedness hypotheses; the source would have undefined
behaviour there). -/
def inOf (blocks : List LiveBlock) (s : Nat) : List Bool :=
  match blocks.get? s with
  | some b => b.liveIn
  | none => []

/-- The OR-accumulation over a block's successors (rapass.cpp:716-720); the
boolean is the OR of the per-call "changed" results. -/
def orFold (blocks : List LiveBlock) : List Bool → List Nat → List Bool × Bool
  | out, [] => (out, false)
  | out, s :: ss =>
    let nw := orBits out (inOf blocks s)
    let r := orFold blocks nw ss
    (r.1, (decide (nw ≠ out)) || r.2)

/-- `kFlagHasLiveness` of block `p` (false if out of range). -/
def flagOf (blocks : List LiveBlock) (p : Nat) : Bool :=
  match blocks.get? p with
  | some pb => pb.hasLiveness
  | none => false

/-- The body of one phase-2 work-list iteration (rapass.cpp:705-743) for a
popped block that exists: mark visited; OR all successors' IN into OUT; if
this was the first visit or OUT changed, recompute IN; if IN changed, push
every already-visited predecessor.  Returns the updated block vector and the
blocks pushed (in push order). -/
def liveStepCore (blocks : List LiveBlock) (bid : Nat) (b : LiveBlock) :
    List LiveBlock × List Nat :=
  let first := !b.hasLiveness
  let r := orFold blocks b.liveOut b.succ
  if first || r.2 then
    let newIn := liveInBits r.1 b.gen b.kill
    let blocks2 := blocks.set bid
      { b with hasLiveness := true, liveOut := r.1, liveIn := newIn }
    if newIn ≠ b.liveIn then
      (blocks2, b.pred.filter (fun p => flagOf blocks2 p))
    else (blocks2, [])
  else
    (blocks.set bid { b with hasLiveness := true, liveOut := r.1 }, [])

/-- One phase-2 iteration for the popped block id. -/
def liveStep (blocks : List LiveBlock) (bid : Nat) : List LiveBlock × List Nat :=
  match blocks.get? bid with
  | none => (blocks, [])
  | some b => liveStepCore blocks bid b

/-- Phase 2 (rapass.cpp:702-744): pop until the work list is empty; pushed
predecessors land on top of the stack (most recently appended popped first).
The source's loop has no fuel — it terminates because the lattice is finite —
so the model returns `none` on fuel exhaustion; `some` is the Ok return with
an empty work list. -/
def phase2 : Nat → List LiveBlock → List Nat → Option (List LiveBlock)
  | _, blocks, [] => some blocks
  | 0, _, _ :: _ => none
  | fuel + 1, blocks, bid :: rest =>
    let r := liveStep blocks bid
    phase2 fuel r.1 (r.2.reverse ++ rest)

/-- `RAPass::constructLiveness` (rapass.cpp:631-762): early Ok when there are
no work registers (bitmaps left untouched); otherwise phase 1 over the POV
from last index to first, then the phase-2 fixpoint on the work list seeded
with every processed block. -/
def constructLiveness (W : Nat) (blocks : List LiveBlock) (pov : List Nat)
    (fuel : Nat) : Option (List LiveBlock) :=
  if W = 0 then some blocks
  else
    let p1 := phase1Go W pov.reverse blocks (List.replicate W false) []
    phase2 fuel p1.1 p1.2.1

theorem getBit_nil (w : Nat) : getBit [] w = false := by
  cases w <;> rfl

theorem getBit_cons_zero (x : Bool) (xs : List Bool) : getBit (x :: xs) 0 = x := rfl

theorem getBit_cons_succ (x : Bool) (xs : List Bool) (w : Nat) :
    getBit (x :: xs) (w + 1) = getBit xs w := rfl

theorem getBit_replicate (n w : Nat) : getBit (List.replicate n false) w = false := by
  induction n generalizing w with
  | zero => exact getBit_nil w
  | succ n ih =>
      cases w with
      | zero => rfl
      | succ w => exact ih w

theorem getBit_eq_of_eq {a b : List Bool} (h : a = b) (w : Nat) :
    getBit a w = getBit b w := by rw [h]

theorem getBit_set_ne (l : List Bool) (i : Nat) (v : Bool) (w : Nat)
    (h : w ≠ i) : getBit (setBit l i v) w = getBit l w := by
  unfold getBit setBit
  unfold List.getD
  rw [List.get?_set_ne _ _ (fun e => h e.symm)]

theorem getBit_set_eq (l : List Bool) (i : Nat) (v : Bool) (h : i < l.length) :
    getBit (setBit l i v) i = v := by
  unfold getBit setBit
  unfold List.getD
  rw [List.get?_set_eq_of_lt _ h]
  rfl

theorem setBit_length (l : List Bool) (i : Nat) (v : Bool) :
    (setBit l i v).length = l.length := by
  unfold setBit
  exact List.length_set l i v

theorem orBits_length (a b : List Bool) :
    (orBits a b).length = min a.length b.length := List.length_zipWith _ a b

theorem getBit_orBits (a : List Bool) : ∀ (b : List Bool), a.length = b.length →
    ∀ w, getBit (orBits a b) w = (getBit a w || getBit b w) := by
  induction a with
  | nil =>
      intro b hb w
      cases b with
      | nil => simp [orBits, getBit_nil]
      | cons y ys => cases hb
  | cons x xs ih =>
      intro b hb w
      cases b with
      | nil => cases hb
      | cons y ys =>
          cases w with
          | zero => rfl
          | succ w =>
              show getBit (orBits xs ys) w = _
              exact ih ys (by simpa using hb) w

theorem liveInBits_length (o : List Bool) : ∀ (g k : List Bool),
    o.length = g.length → g.length = k.length →
    (liveInBits o g k).length = o.length := by
  induction o with
  | nil => intro g k _ _; rfl
  | cons x xs ih =>
      intro g k hg hk
      cases g with
      | nil => cases hg
      | cons y ys =>
          cases k with
          | nil => cases hk
          | cons z zs =>
              show (liveInBits (x :: xs) (y :: ys) (z :: zs)).length = _
              unfold liveInBits
              simp only [List.length_cons]
              rw [ih ys zs (by simpa using hg) (by simpa using hk)]

theorem getBit_liveInBits (o : List Bool) : ∀ (g k : List Bool),
    o.length = g.length → g.length = k.length → ∀ w,
    getBit (liveInBits o g k) w = ((getBit o w || getBit g w) && !getBit k w) := by
  induction o with
  | nil =>
      intro g k hg hk w
      cases g with
      | nil =>
          cases k with
          | nil => simp [liveInBits, getBit_nil]
          | cons z zs => cases hk
      | cons y ys => cases hg
  | cons x xs ih =>
      intro g k hg hk w
      cases g with
      | nil => cases hg
      | cons y ys =>
          cases k with
          | nil => cases hk
          | cons z zs =>
              cases w with
              | zero => rfl
              | succ w =>
                  show getBit (liveInBits xs ys zs) w = _
                  exact ih ys zs (by simpa using hg) (by simpa using hk) w

theorem orFold_length (blocks : List LiveBlock) (out : List Bool)
    (ss : List Nat) (h : ∀ s ∈ ss, (inOf blocks s).length = out.length) :
    (orFold blocks out ss).1.length = out.length := by
  induction ss generalizing out with
  | nil => rfl
  | cons s ss ih =>
      show (orFold blocks (orBits out (inOf blocks s)) ss).1.length = _
      have hlen : (orBits out (inOf blocks s)).length = out.length := by
        rw [orBits_length, h s (List.mem_cons_self s ss), Nat.min_self]
      rw [ih (orBits out (inOf blocks s)) (by
        intro u hu
        rw [h u (List.mem_cons_of_mem s hu), ← hlen]), hlen]

theorem getBit_orFold (blocks : List LiveBlock) (out : List Bool)
    (ss : List Nat) (h : ∀ s ∈ ss, (inOf blocks s).length = out.length)
    (w : Nat) :
    getBit (orFold blocks out ss).1 w =
      (getBit out w || ss.any (fun s => getBit (inOf blocks s) w)) := by
  induction ss generalizing out with
  | nil => simp [orFold]
  | cons s ss ih =>
      show getBit (orFold blocks (orBits out (inOf blocks s)) ss).1 w = _
      have hlen : (orBits out (inOf blocks s)).length = out.length := by
        rw [orBits_length, h s (List.mem_cons_self s ss), Nat.min_self]
      rw [ih (orBits out (inOf blocks s)) (by
        intro u hu
        rw [h u (List.mem_cons_of_mem s hu), ← hlen])]
      rw [getBit_orBits out (inOf blocks s) (h s (List.mem_cons_self s ss)).symm w]
      simp [List.any_cons, Bool.or_assoc]

theorem orFold_unchanged (blocks : List LiveBlock) (out : List Bool)
    (ss : List Nat) (h : (orFold blocks out ss).2 = false) :
    (orFold blocks out ss).1 = out := by
  induction ss generalizing out with
  | nil => rfl
  | cons s ss ih =>
      have h2 : (decide (orBits out (inOf blocks s) ≠ out)
          || (orFold blocks (orBits out (inOf blocks s)) ss).2) = false := h
      rcases Bool.or_eq_false_iff.mp h2 with ⟨hd, hr⟩
      have heq : orBits out (inOf blocks s) = out := by
        by_contra hne
        simp [hne] at hd
      show (orFold blocks (orBits out (inOf blocks s)) ss).1 = out
      rw [heq] at hr ⊢
      exact ih out hr

/-- Structural well-formedness of the block vector during phase 2: bitmap
widths, successor bounds, and predecessor/successor symmetry (the CFG
invariant maintained by `appendSuccessor`/`prependSuccessor`). -/
structure LiveWF (W : Nat) (blocks : List LiveBlock) : Prop where
  lenIn : ∀ b ∈ blocks, b.liveIn.length = W
  lenOut : ∀ b ∈ blocks, b.liveOut.length = W
  lenGen : ∀ b ∈ blocks, b.gen.length = W
  lenKill : ∀ b ∈ blocks, b.kill.length = W
  succBound : ∀ b ∈ blocks, ∀ s ∈ b.succ, s < blocks.length
  edgeSym : ∀ i j bi bj, blocks.get? i = some bi → blocks.get? j = some bj →
      (j ∈ bi.succ ↔ i ∈ bj.pred)

/-- The phase-2 loop invariant. -/
structure LiveInv (W : Nat) (blocks : List LiveBlock) (wl : List Nat) : Prop where
  wf : LiveWF W blocks
  unvisitedIn : ∀ i b, blocks.get? i = some b → b.hasLiveness = false → i ∈ wl
  unvisitedZero : ∀ i b, blocks.get? i = some b → b.hasLiveness = false →
      b.liveIn = List.replicate W false ∧ b.liveOut = List.replicate W false
  visitedEq : ∀ i b, blocks.get? i = some b → b.hasLiveness = true →
      b.liveIn = liveInBits b.liveOut b.gen b.kill
  outUB : ∀ i b w, blocks.get? i = some b → getBit b.liveOut w = true →
      b.succ.any (fun s => getBit (inOf blocks s) w) = true
  outLB : ∀ i b, blocks.get? i = some b → b.hasLiveness = true → i ∉ wl →
      ∀ s ∈ b.succ, ∀ w, getBit (inOf blocks s) w = true →
        getBit b.liveOut w = true

theorem liveStep_spec (blocks : List LiveBlock) (bid : Nat) (b : LiveBlock)
    (out2 newIn : List Bool) (b2 : LiveBlock)
    (hb : blocks.get? bid = some b)
    (hout : out2 = (orFold blocks b.liveOut b.succ).1)
    (hnew : newIn = liveInBits out2 b.gen b.kill)
    (hb2 : b2 = { b with hasLiveness := true, liveOut := out2, liveIn := newIn })
    (hvEq : b.hasLiveness = true → b.liveIn = liveInBits b.liveOut b.gen b.kill) :
    (liveStep blocks bid).1 = blocks.set bid b2 ∧
    ((liveStep blocks bid).2 = b.pred.filter (fun p => flagOf (blocks.set bid b2) p) ∨
     ((liveStep blocks bid).2 = [] ∧ newIn = b.liveIn)) := by
  have hstep : liveStep blocks bid = liveStepCore blocks bid b := by
    unfold liveStep
    simp only [hb]
  rw [hstep]
  unfold liveStepCore
  by_cases hch : (!b.hasLiveness || (orFold blocks b.liveOut b.succ).2) = true
  · rw [if_pos hch]
    by_cases hin : liveInBits (orFold blocks b.liveOut b.succ).1 b.gen b.kill ≠ b.liveIn
    · rw [if_pos hin]
      constructor
      · simp only [hout, hnew] at hb2
        rw [hb2]
      · left
        simp only [hout, hnew] at hb2
        rw [hb2]
    · rw [if_neg hin]
      constructor
      · simp only [hout, hnew] at hb2
        rw [hb2]
      · right
        refine ⟨rfl, ?_⟩
        rw [hnew, hout]
        exact not_not.mp hin
  · rw [if_neg hch]
    have hch2 : (!b.hasLiveness || (orFold blocks b.liveOut b.succ).2) = false :=
      Bool.eq_false_iff.mpr hch
    rcases Bool.or_eq_false_iff.mp hch2 with ⟨h1, hr2⟩
    have hflag : b.hasLiveness = true := by simpa using h1
    have hsame : (orFold blocks b.liveOut b.succ).1 = b.liveOut :=
      orFold_unchanged blocks b.liveOut b.succ hr2
    have hnewEq : newIn = b.liveIn := by
      rw [hnew, hout, hsame, ← hvEq hflag]
    constructor
    · rw [hb2, hnewEq, hout, hsame]
    · exact Or.inr ⟨rfl, hnewEq⟩

theorem liveStep_inv (W : Nat) (blocks : List LiveBlock) (bid : Nat)
    (rest : List Nat) (h : LiveInv W blocks (bid :: rest)) :
    LiveInv W (liveStep blocks bid).1 ((liveStep blocks bid).2.reverse ++ rest) := by
  cases hb : blocks.get? bid with
  | none =>
      have hstep : liveStep blocks bid = (blocks, []) := by
        unfold liveStep
        simp only [hb]
      rw [hstep]
      simp only [List.reverse_nil, List.nil_append]
      refine ⟨h.wf, ?_, h.unvisitedZero, h.visitedEq, h.outUB, ?_⟩
      · intro i c hc hflag
        rcases List.mem_cons.mp (h.unvisitedIn i c hc hflag) with he | hm
        · subst he
          rw [hb] at hc
          cases hc
        · exact hm
      · intro i c hc hflag hnm
        refine h.outLB i c hc hflag ?_
        intro hmem
        rcases List.mem_cons.mp hmem with he | hm
        · subst he
          rw [hb] at hc
          cases hc
        · exact hnm hm
  | some b =>
    rcases List.get?_eq_some.mp hb with ⟨hlt, _⟩
    have hbmem : b ∈ blocks := List.get?_mem hb
    have hgetSome : ∀ s, s < blocks.length → ∃ bs, blocks.get? s = some bs :=
      fun s hs => ⟨blocks.get ⟨s, hs⟩, List.get?_eq_get hs⟩
    have hlenb : b.liveOut.length = W := h.wf.lenOut b hbmem
    have hlenInOf : ∀ s ∈ b.succ, (inOf blocks s).length = b.liveOut.length := by
      intro s hs
      rcases hgetSome s (h.wf.succBound b hbmem s hs) with ⟨bs, hbs⟩
      unfold inOf
      rw [hbs, hlenb]
      exact h.wf.lenIn bs (List.get?_mem hbs)
    set out2 : List Bool := (orFold blocks b.liveOut b.succ).1 with hout2def
    set newIn : List Bool := liveInBits out2 b.gen b.kill with hnewdef
    set b2 : LiveBlock :=
      { b with hasLiveness := true, liveOut := out2, liveIn := newIn } with hb2def
    have hlenOut2 : out2.length = W := by
      rw [hout2def, orFold_length blocks b.liveOut b.succ hlenInOf, hlenb]
    have hgbOut2 : ∀ w, getBit out2 w =
        (getBit b.liveOut w || b.succ.any (fun s => getBit (inOf blocks s) w)) :=
      fun w => getBit_orFold blocks b.liveOut b.succ hlenInOf w
    have hlenNewIn : newIn.length = W := by
      rw [hnewdef,
        liveInBits_length out2 b.gen b.kill
          (by rw [hlenOut2, h.wf.lenGen b hbmem])
          (by rw [h.wf.lenGen b hbmem, h.wf.lenKill b hbmem]),
        hlenOut2]
    have hgbNewIn : ∀ w, getBit newIn w =
        ((getBit out2 w || getBit b.gen w) && !getBit b.kill w) := by
      intro w
      rw [hnewdef]
      exact getBit_liveInBits out2 b.gen b.kill
        (by rw [hlenOut2, h.wf.lenGen b hbmem])
        (by rw [h.wf.lenGen b hbmem, h.wf.lenKill b hbmem]) w
    have hInMono : ∀ w, getBit b.liveIn w = true → getBit newIn w = true := by
      intro w hw
      cases hfl : b.hasLiveness with
      | false =>
          rw [(h.unvisitedZero bid b hb hfl).1, getBit_replicate] at hw
          cases hw
      | true =>
          rw [h.visitedEq bid b hb hfl] at hw
          rw [getBit_liveInBits b.liveOut b.gen b.kill
            (by rw [hlenb, h.wf.lenGen b hbmem])
            (by rw [h.wf.lenGen b hbmem, h.wf.lenKill b hbmem]) w] at hw
          rcases Bool.and_eq_true_iff.mp hw with ⟨ho, hk⟩
          rw [hgbNewIn w, hk, Bool.and_true]
          rcases Bool.or_eq_true_iff.mp ho with ho | ho
          · rw [hgbOut2 w, ho]
            rfl
          · rw [ho, Bool.or_true]
    obtain ⟨hset, hpush⟩ :=
      liveStep_spec blocks bid b out2 newIn b2 hb hout2def hnewdef hb2def
        (h.visitedEq bid b hb)
    have hgetAt : ∀ i, (blocks.set bid b2).get? i =
        if i = bid then some b2 else blocks.get? i := by
      intro i
      by_cases hi : i = bid
      · subst hi
        rw [if_pos rfl]
        exact List.get?_set_eq_of_lt b2 hlt
      · rw [if_neg hi]
        exact List.get?_set_ne _ _ (fun e => hi e.symm)
    have hinOf2 : ∀ s, inOf (blocks.set bid b2) s =
        if s = bid then newIn else inOf blocks s := by
      intro s
      unfold inOf
      rw [hgetAt s]
      by_cases hs : s = bid
      · rw [if_pos hs, if_pos hs]
      · rw [if_neg hs, if_neg hs]
    have hmono : ∀ s w, getBit (inOf blocks s) w = true →
        getBit (inOf (blocks.set bid b2) s) w = true := by
      intro s w hw
      rw [hinOf2 s]
      by_cases hs : s = bid
      · rw [if_pos hs]
        subst hs
        unfold inOf at hw
        rw [hb] at hw
        exact hInMono w hw
      · rw [if_neg hs]
        exact hw
    have hanyMono : ∀ (ss : List Nat) (w : Nat),
        ss.any (fun s => getBit (inOf blocks s) w) = true →
        ss.any (fun s => getBit (inOf (blocks.set bid b2) s) w) = true := by
      intro ss w hw
      rcases List.any_eq_true.mp hw with ⟨s, hs, hsb⟩
      exact List.any_eq_true.mpr ⟨s, hs, hmono s w hsb⟩
    rw [hset]
    have hselfPush : newIn ≠ b.liveIn → bid ∈ b.succ →
        bid ∈ ((liveStep blocks bid).2.reverse ++ rest) := by
      intro hni hself
      rcases hpush with hp | ⟨_, he⟩
      · have hpredSelf : bid ∈ b.pred := (h.wf.edgeSym bid bid b b hb hb).mp hself
        have hflag2 : flagOf (blocks.set bid b2) bid = true := by
          unfold flagOf
          rw [hgetAt bid, if_pos rfl]
        refine List.mem_append.mpr (Or.inl ?_)
        rw [List.mem_reverse, hp]
        exact List.mem_filter.mpr ⟨hpredSelf, hflag2⟩
      · exact absurd he hni
    have hotherPush : ∀ i c, i ≠ bid → blocks.get? i = some c →
        c.hasLiveness = true → newIn ≠ b.liveIn → bid ∈ c.succ →
        i ∈ ((liveStep blocks bid).2.reverse ++ rest) := by
      intro i c hi hc hflag hni hself
      rcases hpush with hp | ⟨_, he⟩
      · have hpredi : i ∈ b.pred := (h.wf.edgeSym i bid c b hc hb).mp hself
        have hflag2 : flagOf (blocks.set bid b2) i = true := by
          unfold flagOf
          rw [hgetAt i, if_neg hi, hc]
          exact hflag
        refine List.mem_append.mpr (Or.inl ?_)
        rw [List.mem_reverse, hp]
        exact List.mem_filter.mpr ⟨hpredi, hflag2⟩
      · exact absurd he hni
    refine ⟨⟨?_, ?_, ?_, ?_, ?_, ?_⟩, ?_, ?_, ?_, ?_, ?_⟩
    · -- lenIn
      intro c hc
      rcases List.mem_or_eq_of_mem_set hc with hm | he
      · exact h.wf.lenIn c hm
      · subst he
        exact hlenNewIn
    · -- lenOut
      intro c hc
      rcases List.mem_or_eq_of_mem_set hc with hm | he
      · exact h.wf.lenOut c hm
      · subst he
        exact hlenOut2
    · -- lenGen
      intro c hc
      rcases List.mem_or_eq_of_mem_set hc with hm | he
      · exact h.wf.lenGen c hm
      · subst he
        exact h.wf.lenGen b hbmem
    · -- lenKill
      intro c hc
      rcases List.mem_or_eq_of_mem_set hc with hm | he
      · exact h.wf.lenKill c hm
      · subst he
        exact h.wf.lenKill b hbmem
    · -- succBound
      intro c hc s hs
      rw [List.length_set]
      rcases List.mem_or_eq_of_mem_set hc with hm | he
      · exact h.wf.succBound c hm s hs
      · subst he
        exact h.wf.succBound b hbmem s hs
    · -- edgeSym
      intro i j bi bj hbi hbj
      rw [hgetAt i] at hbi
      rw [hgetAt j] at hbj
      by_cases hi : i = bid
      · rw [if_pos hi] at hbi
        cases hbi
        by_cases hj : j = bid
        · rw [if_pos hj] at hbj
          cases hbj
          show j ∈ b.succ ↔ i ∈ b.pred
          rw [hi, hj]
          exact h.wf.edgeSym bid bid b b hb hb
        · rw [if_neg hj] at hbj
          show j ∈ b.succ ↔ i ∈ bj.pred
          rw [hi]
          exact h.wf.edgeSym bid j b bj hb hbj
      · rw [if_neg hi] at hbi
        by_cases hj : j = bid
        · rw [if_pos hj] at hbj
          cases hbj
          show j ∈ bi.succ ↔ i ∈ b.pred
          rw [hj]
          exact h.wf.edgeSym i bid bi b hbi hb
        · rw [if_neg hj] at hbj
          exact h.wf.edgeSym i j bi bj hbi hbj
    · -- unvisitedIn
      intro i c hc hflag
      rw [hgetAt i] at hc
      by_cases hi : i = bid
      · rw [if_pos hi] at hc
        cases hc
        cases hflag
      · rw [if_neg hi] at hc
        rcases List.mem_cons.mp (h.unvisitedIn i c hc hflag) with he | hm
        · exact absurd he hi
        · exact List.mem_append.mpr (Or.inr hm)
    · -- unvisitedZero
      intro i c hc hflag
      rw [hgetAt i] at hc
      by_cases hi : i = bid
      · rw [if_pos hi] at hc
        cases hc
        cases hflag
      · rw [if_neg hi] at hc
        exact h.unvisitedZero i c hc hflag
    · -- visitedEq
      intro i c hc _
      rw [hgetAt i] at hc
      by_cases hi : i = bid
      · rw [if_pos hi] at hc
        cases hc
        rfl
      · rw [if_neg hi] at hc
        cases hfl : c.hasLiveness with
        | false =>
            -- unvisited blocks keep all-false IN and OUT, for which the
            -- equation holds as well? no: the equation is only claimed for
            -- visited blocks; the hypothesis gives hasLiveness = true
            exact absurd hfl (by
              intro hfl2
              exact (by simp [hfl2] : ¬ c.hasLiveness = true) ‹c.hasLiveness = true›)
        | true => exact h.visitedEq i c hc hfl
    · -- outUB
      intro i c w hc hw
      rw [hgetAt i] at hc
      by_cases hi : i = bid
      · rw [if_pos hi] at hc
        cases hc
        rw [show b2.liveOut = out2 from rfl] at hw
        rw [hgbOut2 w] at hw
        show b.succ.any (fun s => getBit (inOf (blocks.set bid b2) s) w) = true
        rcases Bool.or_eq_true_iff.mp hw with ho | ho
        · exact hanyMono b.succ w (h.outUB bid b w hb ho)
        · exact hanyMono b.succ w ho
      · rw [if_neg hi] at hc
        exact hanyMono c.succ w (h.outUB i c w hc hw)
    · -- outLB
      intro i c hc hflag hnm s hs w hw
      rw [hgetAt i] at hc
      rw [hinOf2 s] at hw
      by_cases hi : i = bid
      · rw [if_pos hi] at hc
        cases hc
        rw [show b2.liveOut = out2 from rfl]
        by_cases hsb : s = bid
        · rw [if_pos hsb] at hw
          by_cases hni : newIn = b.liveIn
          · rw [hni] at hw
            rw [hgbOut2 w]
            refine Bool.or_eq_true_iff.mpr
              (Or.inr (List.any_eq_true.mpr ⟨s, show s ∈ b.succ from hs, ?_⟩))
            rw [hsb]
            unfold inOf
            rw [hb]
            exact hw
          · exact absurd (hselfPush hni (hsb ▸ (show s ∈ b.succ from hs))) (hi ▸ hnm)
        · rw [if_neg hsb] at hw
          rw [hgbOut2 w]
          exact Bool.or_eq_true_iff.mpr
            (Or.inr (List.any_eq_true.mpr ⟨s, show s ∈ b.succ from hs, hw⟩))
      · rw [if_neg hi] at hc
        have hinm : i ∉ (bid :: rest) := by
          intro hmem
          rcases List.mem_cons.mp hmem with he | hm
          · exact hi he
          · exact hnm (List.mem_append.mpr (Or.inr hm))
        by_cases hsb : s = bid
        · rw [if_pos hsb] at hw
          by_cases hni : newIn = b.liveIn
          · rw [hni] at hw
            refine h.outLB i c hc hflag hinm s hs w ?_
            rw [hsb]
            unfold inOf
            rw [hb]
            exact hw
          · exact absurd (hotherPush i c hi hc hflag hni (hsb ▸ hs)) hnm
        · rw [if_neg hsb] at hw
          exact h.outLB i c hc hflag hinm s hs w hw

theorem phase2_inv (W : Nat) : ∀ (fuel : Nat) (blocks : List LiveBlock)
    (wl : List Nat) (blocksF : List LiveBlock),
    phase2 fuel blocks wl = some blocksF → LiveInv W blocks wl →
    LiveInv W blocksF [] := by
  intro fuel
  induction fuel with
  | zero =>
      intro blocks wl blocksF hrun hinv
      cases wl with
      | nil =>
          cases hrun
          exact hinv
      | cons bid rest => cases hrun
  | succ fuel ih =>
      intro blocks wl blocksF hrun hinv
      cases wl with
      | nil =>
          cases hrun
          exact hinv
      | cons bid rest =>
          have hrun2 : phase2 fuel (liveStep blocks bid).1
              ((liveStep blocks bid).2.reverse ++ rest) = some blocksF := hrun
          exact ih (liveStep blocks bid).1 _ blocksF hrun2
            (liveStep_inv W blocks bid rest hinv)

theorem applyTied_lengths (acc : List Bool × List Bool × List Bool)
    (t : RATiedRef) :
    (applyTied acc t).1.length = acc.1.length ∧
    (applyTied acc t).2.1.length = acc.2.1.length ∧
    (applyTied acc t).2.2.length = acc.2.2.length := by
  unfold applyTied
  split
  · exact ⟨rfl, setBit_length _ _ _, setBit_length _ _ _⟩
  · exact ⟨setBit_length _ _ _, setBit_length _ _ _, setBit_length _ _ _⟩

theorem foldTied_lengths (es : List RATiedRef) :
    ∀ acc : List Bool × List Bool × List Bool,
    ((es.foldl applyTied acc).1.length = acc.1.length ∧
     (es.foldl applyTied acc).2.1.length = acc.2.1.length ∧
     (es.foldl applyTied acc).2.2.length = acc.2.2.length) := by
  induction es with
  | nil => intro acc; exact ⟨rfl, rfl, rfl⟩
  | cons t ts ih =>
      intro acc
      have h1 := applyTied_lengths acc t
      have h2 := ih (applyTied acc t)
      exact ⟨h2.1.trans h1.1, h2.2.1.trans h1.2.1, h2.2.2.trans h1.2.2⟩

theorem walkInsts_lengths (insts : List RAInst) :
    ∀ g k l : List Bool,
    ((walkInsts insts g k l).gen.length = g.length ∧
     (walkInsts insts g k l).kill.length = k.length ∧
     (walkInsts insts g k l).live.length = l.length) := by
  induction insts with
  | nil => intro g k l; exact ⟨rfl, rfl, rfl⟩
  | cons i rest ih =>
      intro g k l
      have h1 := foldTied_lengths i.tied (g, k, l)
      have h2 := ih (i.tied.foldl applyTied (g, k, l)).1
        (i.tied.foldl applyTied (g, k, l)).2.1
        (i.tied.foldl applyTied (g, k, l)).2.2
      exact ⟨h2.1.trans h1.1, h2.2.1.trans h1.2.1, h2.2.2.trans h1.2.2⟩

theorem processBlock_length (W : Nat) (blocks : List LiveBlock)
    (live : List Bool) (bid : Nat) :
    (processBlock W blocks live bid).1.length = blocks.length := by
  unfold processBlock
  cases hb : blocks.get? bid with
  | none => rfl
  | some b => exact List.length_set blocks bid _

theorem processBlock_get_ne (W : Nat) (blocks : List LiveBlock)
    (live : List Bool) (bid i : Nat) (hi : i ≠ bid) :
    (processBlock W blocks live bid).1.get? i = blocks.get? i := by
  unfold processBlock
  cases hb : blocks.get? bid with
  | none => rfl
  | some b => exact List.get?_set_ne _ _ (fun e => hi e.symm)

theorem processBlock_get_self (W : Nat) (blocks : List LiveBlock)
    (live : List Bool) (bid : Nat) (b : LiveBlock)
    (hb : blocks.get? bid = some b) :
    (processBlock W blocks live bid).1.get? bid = some
      { b with
        gen := (walkInsts b.insts.reverse (List.replicate W false)
          (List.replicate W false) live).gen
        kill := (walkInsts b.insts.reverse (List.replicate W false)
          (List.replicate W false) live).kill
        liveIn := List.replicate W false
        liveOut := List.replicate W false
        snaps := (walkInsts b.insts.reverse (List.replicate W false)
          (List.replicate W false) live).snaps.reverse } := by
  rcases List.get?_eq_some.mp hb with ⟨hlt, _⟩
  unfold processBlock
  simp only [hb]
  exact List.get?_set_eq_of_lt _ hlt

theorem phase1Go_facts (W : Nat) (order : List Nat) :
    ∀ (blocks : List LiveBlock) (live : List Bool) (wl : List Nat),
    ((phase1Go W order blocks live wl).1.length = blocks.length) ∧
    ((phase1Go W order blocks live wl).2.1 = order.reverse ++ wl) ∧
    (∀ i, i ∉ order → (phase1Go W order blocks live wl).1.get? i = blocks.get? i) ∧
    (∀ i bi2, i ∈ order → (phase1Go W order blocks live wl).1.get? i = some bi2 →
      ∃ bi, blocks.get? i = some bi ∧ bi2.succ = bi.succ ∧ bi2.pred = bi.pred ∧
        bi2.hasLiveness = bi.hasLiveness ∧
        bi2.liveIn = List.replicate W false ∧
        bi2.liveOut = List.replicate W false ∧
        bi2.gen.length = W ∧ bi2.kill.length = W) := by
  induction order with
  | nil =>
      intro blocks live wl
      refine ⟨rfl, rfl, fun i _ => rfl, fun i bi2 hi => absurd hi (by simp)⟩
  | cons bid order ih =>
      intro blocks live wl
      have hstep : phase1Go W (bid :: order) blocks live wl =
          phase1Go W order (processBlock W blocks live bid).1
            (processBlock W blocks live bid).2 (bid :: wl) := rfl
      rcases ih (processBlock W blocks live bid).1
        (processBlock W blocks live bid).2 (bid :: wl) with ⟨hlen, hwl, hne, hmem⟩
      refine ⟨?_, ?_, ?_, ?_⟩
      · rw [hstep, hlen, processBlock_length]
      · rw [hstep, hwl]
        simp
      · intro i hi
        have hi1 : i ∉ order := fun e => hi (List.mem_cons_of_mem bid e)
        have hi2 : i ≠ bid := fun e => hi (e ▸ List.mem_cons_self bid order)
        rw [hstep, hne i hi1, processBlock_get_ne W blocks live bid i hi2]
      · intro i bi2 hi hbi2
        rw [hstep] at hbi2
        by_cases hio : i ∈ order
        · rcases hmem i bi2 hio hbi2 with
            ⟨bi1, hbi1, hsucc, hpred, hfl, hin, hout, hg, hk⟩
          by_cases hib : i = bid
          · subst hib
            cases hbp : blocks.get? i with
            | none =>
                rw [show (processBlock W blocks live i).1.get? i = blocks.get? i from by
                      unfold processBlock
                      simp only [hbp], hbp] at hbi1
                cases hbi1
            | some b0 =>
                rw [processBlock_get_self W blocks live i b0 hbp] at hbi1
                cases hbi1
                exact ⟨b0, rfl, hsucc, hpred, hfl, hin, hout, hg, hk⟩
          · rw [processBlock_get_ne W blocks live bid i hib] at hbi1
            exact ⟨bi1, hbi1, hsucc, hpred, hfl, hin, hout, hg, hk⟩
        · have hib : i = bid := by
            rcases List.mem_cons.mp hi with he | hm
            · exact he
            · exact absurd hm hio
          subst hib
          rw [hne i hio] at hbi2
          cases hbp : blocks.get? i with
          | none =>
              rw [show (processBlock W blocks live i).1.get? i = blocks.get? i from by
                    unfold processBlock
                    simp only [hbp], hbp] at hbi2
              cases hbi2
          | some b0 =>
              rw [processBlock_get_self W blocks live i b0 hbp] at hbi2
              cases hbi2
              refine ⟨b0, rfl, rfl, rfl, rfl, rfl, rfl, ?_, ?_⟩
              · have := (walkInsts_lengths b0.insts.reverse (List.replicate W false)
                  (List.replicate W false) live).1
                simpa using this
              · have := (walkInsts_lengths b0.insts.reverse (List.replicate W false)
                  (List.replicate W false) live).2.1
                simpa using this

theorem boolEq_of_iff {a b : Bool} (h : a = true ↔ b = true) : a = b := by
  cases a <;> cases b <;> simp_all

/-- C6. After `constructLiveness` returns Ok — phase 2 reached the empty work
list within the given fuel, or the zero-work-register early return was taken —
then for every block `b` and every work id `w`:
`IN[b][w] = (OUT[b][w] ∨ GEN[b][w]) ∧ ¬KILL[b][w]`, and `OUT[b][w]` is the
disjunction of `IN[s][w]` over the successors `s` of `b`.  The hypotheses are
the state `constructLiveness` starts from (rapass.cpp:631): every block still
unvisited with the empty bitmaps left by the `RABlock` constructor, the POV
covering every block, successors in range, and the predecessor/successor
symmetry maintained by the edge operations. -/
theorem constructLiveness_fixpoint (W fuel : Nat)
    (blocks blocksF : List LiveBlock) (pov : List Nat)
    (hflags : ∀ b ∈ blocks, b.hasLiveness = false)
    (hmaps : ∀ b ∈ blocks, b.liveIn = [] ∧ b.liveOut = [] ∧
        b.gen = [] ∧ b.kill = [])
    (hpov : ∀ i, i < blocks.length → i ∈ pov)
    (hsuccB : ∀ b ∈ blocks, ∀ s ∈ b.succ, s < blocks.length)
    (hsym : ∀ i j bi bj, blocks.get? i = some bi → blocks.get? j = some bj →
        (j ∈ bi.succ ↔ i ∈ bj.pred))
    (hrun : constructLiveness W blocks pov fuel = some blocksF) :
    ∀ i b, blocksF.get? i = some b → ∀ w,
      getBit b.liveIn w =
        ((getBit b.liveOut w || getBit b.gen w) && !getBit b.kill w) ∧
      getBit b.liveOut w = b.succ.any (fun s => getBit (inOf blocksF s) w) := by
  by_cases hW : W = 0
  · unfold constructLiveness at hrun
    rw [if_pos hW] at hrun
    cases hrun
    intro i b hb w
    rcases hmaps b (List.get?_mem hb) with ⟨hin, hout, hgen, hkill⟩
    constructor
    · rw [hin, hout, hgen, hkill]
      simp [getBit_nil]
    · rw [hout, getBit_nil]
      symm
      refine List.any_eq_false.mpr ?_
      intro s hs
      cases hgs : blocks.get? s with
      | none =>
          simp only [inOf, hgs]
          simp [getBit_nil]
      | some bs =>
          simp only [inOf, hgs]
          rcases hmaps bs (List.get?_mem hgs) with ⟨hin2, _, _, _⟩
          rw [hin2]
          simp [getBit_nil]
  · unfold constructLiveness at hrun
    rw [if_neg hW] at hrun
    rcases phase1Go_facts W pov.reverse blocks (List.replicate W false) []
      with ⟨hlen, hwl, hne, hmem⟩
    have hallpov : ∀ i bi2,
        (phase1Go W pov.reverse blocks (List.replicate W false) []).1.get? i
          = some bi2 →
        ∃ bi, blocks.get? i = some bi ∧ bi2.succ = bi.succ ∧
          bi2.pred = bi.pred ∧ bi2.hasLiveness = bi.hasLiveness ∧
          bi2.liveIn = List.replicate W false ∧
          bi2.liveOut = List.replicate W false ∧
          bi2.gen.length = W ∧ bi2.kill.length = W := by
      intro i bi2 hbi2
      have hilt : i < blocks.length := by
        rcases List.get?_eq_some.mp hbi2 with ⟨hlt, _⟩
        rw [hlen] at hlt
        exact hlt
      exact hmem i bi2 (by rw [List.mem_reverse]; exact hpov i hilt) hbi2
    have hgetIdx : ∀ (l : List LiveBlock) (c : LiveBlock), c ∈ l →
        ∃ i, l.get? i = some c := by
      intro l c hc
      rcases List.get_of_mem hc with ⟨⟨i, hi⟩, hg⟩
      exact ⟨i, by rw [List.get?_eq_get hi, hg]⟩
    have hflag2 : ∀ i bi2,
        (phase1Go W pov.reverse blocks (List.replicate W false) []).1.get? i
          = some bi2 → bi2.hasLiveness = false := by
      intro i bi2 hbi2
      rcases hallpov i bi2 hbi2 with ⟨bi, hbi, _, _, hfl, _⟩
      rw [hfl]
      exact hflags bi (List.get?_mem hbi)
    have hinv : LiveInv W
        (phase1Go W pov.reverse blocks (List.replicate W false) []).1
        (phase1Go W pov.reverse blocks (List.replicate W false) []).2.1 := by
      refine ⟨⟨?_, ?_, ?_, ?_, ?_, ?_⟩, ?_, ?_, ?_, ?_, ?_⟩
      · intro c hc
        rcases hgetIdx _ c hc with ⟨i, hi⟩
        rcases hallpov i c hi with ⟨bi, _, _, _, _, hin, _, _, _⟩
        rw [hin]
        exact List.length_replicate W false
      · intro c hc
        rcases hgetIdx _ c hc with ⟨i, hi⟩
        rcases hallpov i c hi with ⟨bi, _, _, _, _, _, hout, _, _⟩
        rw [hout]
        exact List.length_replicate W false
      · intro c hc
        rcases hgetIdx _ c hc with ⟨i, hi⟩
        rcases hallpov i c hi with ⟨bi, _, _, _, _, _, _, hg, _⟩
        exact hg
      · intro c hc
        rcases hgetIdx _ c hc with ⟨i, hi⟩
        rcases hallpov i c hi with ⟨bi, _, _, _, _, _, _, _, hk⟩
        exact hk
      · intro c hc s hs
        rcases hgetIdx _ c hc with ⟨i, hi⟩
        rcases hallpov i c hi with ⟨bi, hbi, hsc, _, _, _, _, _, _⟩
        rw [hlen]
        rw [hsc] at hs
        exact hsuccB bi (List.get?_mem hbi) s hs
      · intro i j bi2 bj2 hbi2 hbj2
        rcases hallpov i bi2 hbi2 with ⟨bi, hbi, hsci, hpri, _, _, _, _, _⟩
        rcases hallpov j bj2 hbj2 with ⟨bj, hbj, hscj, hprj, _, _, _, _, _⟩
        rw [hsci, hprj]
        exact hsym i j bi bj hbi hbj
      · intro i c hc _
        have hilt : i < blocks.length := by
          rcases List.get?_eq_some.mp hc with ⟨hlt, _⟩
          rw [hlen] at hlt
          exact hlt
        rw [hwl]
        simp only [List.reverse_reverse, List.append_nil]
        exact hpov i hilt
      · intro i c hc _
        rcases hallpov i c hc with ⟨bi, _, _, _, _, hin, hout, _, _⟩
        exact ⟨hin, hout⟩
      · intro i c hc hfl
        rw [hflag2 i c hc] at hfl
        cases hfl
      · intro i c w hc hw
        rcases hallpov i c hc with ⟨bi, _, _, _, _, _, hout, _, _⟩
        rw [hout, getBit_replicate] at hw
        cases hw
      · intro i c hc hfl
        rw [hflag2 i c hc] at hfl
        cases hfl
    have hinvF : LiveInv W blocksF [] :=
      phase2_inv W fuel _ _ blocksF hrun hinv
    intro i b hb w
    have hflagT : b.hasLiveness = true := by
      cases hfl : b.hasLiveness with
      | true => rfl
      | false => exact absurd (hinvF.unvisitedIn i b hb hfl) (List.not_mem_nil i)
    have hbm : b ∈ blocksF := List.get?_mem hb
    constructor
    · rw [hinvF.visitedEq i b hb hflagT]
      exact getBit_liveInBits b.liveOut b.gen b.kill
        (by rw [hinvF.wf.lenOut b hbm, hinvF.wf.lenGen b hbm])
        (by rw [hinvF.wf.lenGen b hbm, hinvF.wf.lenKill b hbm]) w
    · refine boolEq_of_iff ⟨?_, ?_⟩
      · intro hw
        exact hinvF.outUB i b w hb hw
      · intro hw
        rcases List.any_eq_true.mp hw with ⟨s, hs, hsb⟩
        exact hinvF.outLB i b hb hflagT (List.not_mem_nil i) s hs w hsb

theorem edgeSym_of_bounded (blocks : List LiveBlock)
    (h : ∀ i, (hi : i < blocks.length) → ∀ j, (hj : j < blocks.length) →
        (j ∈ (blocks.get ⟨i, hi⟩).succ ↔ i ∈ (blocks.get ⟨j, hj⟩).pred)) :
    ∀ i j bi bj, blocks.get? i = some bi → blocks.get? j = some bj →
      (j ∈ bi.succ ↔ i ∈ bj.pred) := by
  intro i j bi bj hbi hbj
  rcases List.get?_eq_some.mp hbi with ⟨hi, hgi⟩
  rcases List.get?_eq_some.mp hbj with ⟨hj, hgj⟩
  rw [← hgi, ← hgj]
  exact h i hi j hj

/-- Two-block CFG used as concrete input: entry block 0 with one instruction
reading work register 0 and successor 1; exit block 1 with one instruction
without tied registers.  POV = [1, 0] (exit first, entry last). -/
def c6blocks : List LiveBlock :=
  [ { insts := [⟨[⟨0, false⟩]⟩], succ := [1], pred := [], gen := [], kill := [],
      liveIn := [], liveOut := [], snaps := [], hasLiveness := false },
    { insts := [⟨[]⟩], succ := [], pred := [0], gen := [], kill := [],
      liveIn := [], liveOut := [], snaps := [], hasLiveness := false } ]

/-- The block vector computed by `constructLiveness` on `c6blocks`. -/
def c6result : List LiveBlock := (constructLiveness 1 c6blocks [1, 0] 10).getD []

/-- Result record of the entry block of `c6result`: GEN = {w0},
KILL = ∅, IN = {w0}, OUT = ∅. -/
def c6res0 : LiveBlock :=
  { insts := [⟨[⟨0, false⟩]⟩], succ := [1], pred := [], gen := [true],
    kill := [false], liveIn := [true], liveOut := [false],
    snaps := [[false]], hasLiveness := true }

/-- Witness for C6 at the concrete two-block CFG: the dataflow equations hold
for the entry block at work id 0. -/
theorem constructLiveness_fixpoint_witness :
    getBit c6res0.liveIn 0 =
      ((getBit c6res0.liveOut 0 || getBit c6res0.gen 0) && !getBit c6res0.kill 0) ∧
    getBit c6res0.liveOut 0 =
      c6res0.succ.any (fun s => getBit (inOf c6result s) 0) :=
  constructLiveness_fixpoint 1 10 c6blocks c6result [1, 0]
    (by decide) (by decide)
    (by
      intro i hi
      have h2 : i < 2 := hi
      interval_cases i <;> decide)
    (by decide)
    (edgeSym_of_bounded c6blocks (by decide))
    (by rfl)
    0 c6res0 (by rfl) 0

/-! ### GEN/KILL phase characterization and the cross-block running live set

The claim for the GEN/KILL phase says every block's walk starts from an empty
running live set; in the source the `liveness` bitmap is allocated and zeroed
once before the block loop (rapass.cpp:649-650) and never cleared between
blocks, so it carries over from the previously processed block. -/

/-- The GEN/KILL phase as the claim describes it, for comparison with
`phase1Go` (which is translated from the source): identical except that the
running live set is reset to empty for each block. -/
def processBlockClaim (W : Nat) (blocks : List LiveBlock) (bid : Nat) :
    List LiveBlock :=
  match blocks.get? bid with
  | none => blocks
  | some b =>
    let r := walkInsts b.insts.reverse (List.replicate W false)
      (List.replicate W false) (List.replicate W false)
    blocks.set bid
      { b with
        gen := r.gen
        kill := r.kill
        liveIn := List.replicate W false
        liveOut := List.replicate W false
        snaps := r.snaps.reverse }

/-- The per-block-reset variant of phase 1 (the claim's reading). -/
def phase1GoClaim (W : Nat) : List Nat → List LiveBlock → List LiveBlock
  | [], blocks => blocks
  | bid :: order, blocks => phase1GoClaim W order (processBlockClaim W blocks bid)

/-- Two isolated blocks: block 0 with one instruction reading work register 0,
block 1 with one instruction without tied registers; processing order 0 then 1
(POV = [1, 0] walked from the last index down). -/
def c7blocks : List LiveBlock :=
  [ { insts := [⟨[⟨0, false⟩]⟩], succ := [], pred := [], gen := [], kill := [],
      liveIn := [], liveOut := [], snaps := [], hasLiveness := false },
    { insts := [⟨[]⟩], succ := [], pred := [], gen := [], kill := [],
      liveIn := [], liveOut := [], snaps := [], hasLiveness := false } ]

/-- The per-instruction liveness snapshots stored on block `i`. -/
def snapsOf (blocks : List LiveBlock) (i : Nat) : Option (List (List Bool)) :=
  (blocks.get? i).map (fun b => b.snaps)

/-- C7 counterexample. Processing `c7blocks` in order [0, 1] with one work
register: block 1's only instruction receives the snapshot `[true]` — work
register 0 is recorded live across it, left over from block 0's walk — while
the claim's per-block-reset reading predicts `[false]`.  The running live set
is NOT empty at the start of each block; it is initialized once and carried
across blocks. -/
theorem liveness_runningset_counterexample :
    snapsOf (phase1Go 1 [0, 1] c7blocks (List.replicate 1 false) []).1 1 =
      some [[true]] ∧
    snapsOf (phase1GoClaim 1 [0, 1] c7blocks) 1 = some [[false]] ∧
    some [[true]] ≠ some ([[false]] : List (List Bool)) := by
  refine ⟨by rfl, by rfl, by decide⟩

/-- All tied entries of all instructions, in processing order: instructions in
walk order, each instruction's tied array in index order. -/
def entriesOf (insts : List RAInst) : List RATiedRef :=
  insts.bind (fun i => i.tied)

/-- The entry for work id `w` whose effect is applied last in a processing
sequence (the claim's per-entry update rules make the last mention win for
KILL and the live bit). -/
def lastMention (w : Nat) : List RATiedRef → Option RATiedRef
  | [] => none
  | t :: ts =>
    match lastMention w ts with
    | some r => some r
    | none => if t.workId = w then some t else none

theorem applyTied_eq_true (g k l : List Bool) (t : RATiedRef)
    (hwo : t.writeOnly = true) :
    applyTied (g, k, l) t = (g, setBit k t.workId true, setBit l t.workId false) := by
  unfold applyTied
  rw [hwo]
  rfl

theorem applyTied_eq_false (g k l : List Bool) (t : RATiedRef)
    (hwo : t.writeOnly = false) :
    applyTied (g, k, l) t =
      (setBit g t.workId true, setBit k t.workId false, setBit l t.workId true) := by
  unfold applyTied
  rw [hwo]
  rfl

theorem foldTied_kill (w : Nat) (es : List RATiedRef) :
    ∀ (g k l : List Bool), (∀ t ∈ es, t.workId < k.length) →
    getBit ((es.foldl applyTied (g, k, l)).2.1) w =
      (match lastMention w es with
       | some t => t.writeOnly
       | none => getBit k w) := by
  induction es with
  | nil => intro g k l _; rfl
  | cons t ts ih =>
      intro g k l hw
      have hk1 : (applyTied (g, k, l) t).2.1.length = k.length :=
        (applyTied_lengths (g, k, l) t).2.1
      have hts : ∀ u ∈ ts, u.workId < (applyTied (g, k, l) t).2.1.length := by
        intro u hu
        rw [hk1]
        exact hw u (List.mem_cons_of_mem t hu)
      have hstep : (t :: ts).foldl applyTied (g, k, l) =
          ts.foldl applyTied (applyTied (g, k, l) t) := rfl
      have hih := ih (applyTied (g, k, l) t).1 (applyTied (g, k, l) t).2.1
        (applyTied (g, k, l) t).2.2 hts
      rw [show ((applyTied (g, k, l) t).1, (applyTied (g, k, l) t).2.1,
          (applyTied (g, k, l) t).2.2) = applyTied (g, k, l) t from rfl] at hih
      rw [hstep, hih]
      cases hlm : lastMention w ts with
      | some r =>
          rw [show lastMention w (t :: ts) = some r from by
            unfold lastMention
            rw [hlm]]
      | none =>
          rw [show lastMention w (t :: ts) =
              (if t.workId = w then some t else none) from by
            unfold lastMention
            rw [hlm]]
          have hwt := hw t (List.mem_cons_self t ts)
          show getBit (applyTied (g, k, l) t).2.1 w =
            (match (if t.workId = w then some t else none) with
             | some u => u.writeOnly
             | none => getBit k w)
          by_cases htw : t.workId = w
          · rw [if_pos htw]
            cases hwo : t.writeOnly with
            | true =>
                rw [applyTied_eq_true g k l t hwo]
                show getBit (setBit k t.workId true) w = t.writeOnly
                rw [hwo, htw]
                exact getBit_set_eq k w true (htw ▸ hwt)
            | false =>
                rw [applyTied_eq_false g k l t hwo]
                show getBit (setBit k t.workId false) w = t.writeOnly
                rw [hwo, htw]
                exact getBit_set_eq k w false (htw ▸ hwt)
          · rw [if_neg htw]
            cases hwo : t.writeOnly with
            | true =>
                rw [applyTied_eq_true g k l t hwo]
                show getBit (setBit k t.workId true) w = getBit k w
                exact getBit_set_ne k t.workId true w (fun e => htw e.symm)
            | false =>
                rw [applyTied_eq_false g k l t hwo]
                show getBit (setBit k t.workId false) w = getBit k w
                exact getBit_set_ne k t.workId false w (fun e => htw e.symm)

theorem foldTied_live (w : Nat) (es : List RATiedRef) :
    ∀ (g k l : List Bool), (∀ t ∈ es, t.workId < l.length) →
    getBit ((es.foldl applyTied (g, k, l)).2.2) w =
      (match lastMention w es with
       | some t => !t.writeOnly
       | none => getBit l w) := by
  induction es with
  | nil => intro g k l _; rfl
  | cons t ts ih =>
      intro g k l hw
      have hl1 : (applyTied (g, k, l) t).2.2.length = l.length :=
        (applyTied_lengths (g, k, l) t).2.2
      have hts : ∀ u ∈ ts, u.workId < (applyTied (g, k, l) t).2.2.length := by
        intro u hu
        rw [hl1]
        exact hw u (List.mem_cons_of_mem t hu)
      have hstep : (t :: ts).foldl applyTied (g, k, l) =
          ts.foldl applyTied (applyTied (g, k, l) t) := rfl
      have hih := ih (applyTied (g, k, l) t).1 (applyTied (g, k, l) t).2.1
        (applyTied (g, k, l) t).2.2 hts
      rw [show ((applyTied (g, k, l) t).1, (applyTied (g, k, l) t).2.1,
          (applyTied (g, k, l) t).2.2) = applyTied (g, k, l) t from rfl] at hih
      rw [hstep, hih]
      cases hlm : lastMention w ts with
      | some r =>
          rw [show lastMention w (t :: ts) = some r from by
            unfold lastMention
            rw [hlm]]
      | none =>
          rw [show lastMention w (t :: ts) =
              (if t.workId = w then some t else none) from by
            unfold lastMention
            rw [hlm]]
          have hwt := hw t (List.mem_cons_self t ts)
          show getBit (applyTied (g, k, l) t).2.2 w =
            (match (if t.workId = w then some t else none) with
             | some u => !u.writeOnly
             | none => getBit l w)
          by_cases htw : t.workId = w
          · rw [if_pos htw]
            cases hwo : t.writeOnly with
            | true =>
                rw [applyTied_eq_true g k l t hwo]
                show getBit (setBit l t.workId false) w = !t.writeOnly
                rw [hwo, htw]
                exact getBit_set_eq l w false (htw ▸ hwt)
            | false =>
                rw [applyTied_eq_false g k l t hwo]
                show getBit (setBit l t.workId true) w = !t.writeOnly
                rw [hwo, htw]
                exact getBit_set_eq l w true (htw ▸ hwt)
          · rw [if_neg htw]
            cases hwo : t.writeOnly with
            | true =>
                rw [applyTied_eq_true g k l t hwo]
                show getBit (setBit l t.workId false) w = getBit l w
                exact getBit_set_ne l t.workId false w (fun e => htw e.symm)
            | false =>
                rw [applyTied_eq_false g k l t hwo]
                show getBit (setBit l t.workId true) w = getBit l w
                exact getBit_set_ne l t.workId true w (fun e => htw e.symm)

theorem foldTied_gen (w : Nat) (es : List RATiedRef) :
    ∀ (g k l : List Bool), (∀ t ∈ es, t.workId < g.length) →
    getBit ((es.foldl applyTied (g, k, l)).1) w =
      (getBit g w || es.any (fun t => decide (t.workId = w) && !t.writeOnly)) := by
  induction es with
  | nil => intro g k l _; simp
  | cons t ts ih =>
      intro g k l hw
      have hg1 : (applyTied (g, k, l) t).1.length = g.length :=
        (applyTied_lengths (g, k, l) t).1
      have hts : ∀ u ∈ ts, u.workId < (applyTied (g, k, l) t).1.length := by
        intro u hu
        rw [hg1]
        exact hw u (List.mem_cons_of_mem t hu)
      have hstep : (t :: ts).foldl applyTied (g, k, l) =
          ts.foldl applyTied (applyTied (g, k, l) t) := rfl
      have hih := ih (applyTied (g, k, l) t).1 (applyTied (g, k, l) t).2.1
        (applyTied (g, k, l) t).2.2 hts
      rw [show ((applyTied (g, k, l) t).1, (applyTied (g, k, l) t).2.1,
          (applyTied (g, k, l) t).2.2) = applyTied (g, k, l) t from rfl] at hih
      rw [hstep, hih, List.any_cons]
      have hwt := hw t (List.mem_cons_self t ts)
      have hgb : getBit (applyTied (g, k, l) t).1 w =
          (getBit g w || (decide (t.workId = w) && !t.writeOnly)) := by
        cases hwo : t.writeOnly with
        | true =>
            rw [applyTied_eq_true g k l t hwo]
            show getBit g w = _
            simp
        | false =>
            rw [applyTied_eq_false g k l t hwo]
            show getBit (setBit g t.workId true) w = _
            by_cases htw : t.workId = w
            · rw [htw, getBit_set_eq g w true (htw ▸ hwt)]
              simp [htw]
            · rw [getBit_set_ne g t.workId true w (fun e => htw e.symm)]
              simp [htw]
      rw [hgb, Bool.or_assoc]

theorem entriesOf_cons (i : RAInst) (rest : List RAInst) :
    entriesOf (i :: rest) = i.tied ++ entriesOf rest := rfl

theorem walkInsts_as_fold (insts : List RAInst) : ∀ g k l : List Bool,
    (walkInsts insts g k l).gen = ((entriesOf insts).foldl applyTied (g, k, l)).1 ∧
    (walkInsts insts g k l).kill = ((entriesOf insts).foldl applyTied (g, k, l)).2.1 ∧
    (walkInsts insts g k l).live = ((entriesOf insts).foldl applyTied (g, k, l)).2.2 := by
  induction insts with
  | nil => intro g k l; exact ⟨rfl, rfl, rfl⟩
  | cons i rest ih =>
      intro g k l
      have h1 := ih (i.tied.foldl applyTied (g, k, l)).1
        (i.tied.foldl applyTied (g, k, l)).2.1
        (i.tied.foldl applyTied (g, k, l)).2.2
      rw [show ((i.tied.foldl applyTied (g, k, l)).1,
          (i.tied.foldl applyTied (g, k, l)).2.1,
          (i.tied.foldl applyTied (g, k, l)).2.2) =
          i.tied.foldl applyTied (g, k, l) from rfl] at h1
      refine ⟨?_, ?_, ?_⟩
      · show (walkInsts rest (i.tied.foldl applyTied (g, k, l)).1
            (i.tied.foldl applyTied (g, k, l)).2.1
            (i.tied.foldl applyTied (g, k, l)).2.2).gen = _
        rw [h1.1, entriesOf_cons, List.foldl_append]
      · show (walkInsts rest (i.tied.foldl applyTied (g, k, l)).1
            (i.tied.foldl applyTied (g, k, l)).2.1
            (i.tied.foldl applyTied (g, k, l)).2.2).kill = _
        rw [h1.2.1, entriesOf_cons, List.foldl_append]
      · show (walkInsts rest (i.tied.foldl applyTied (g, k, l)).1
            (i.tied.foldl applyTied (g, k, l)).2.1
            (i.tied.foldl applyTied (g, k, l)).2.2).live = _
        rw [h1.2.2, entriesOf_cons, List.foldl_append]

theorem walkInsts_snaps_length (insts : List RAInst) : ∀ g k l : List Bool,
    (walkInsts insts g k l).snaps.length = insts.length := by
  induction insts with
  | nil => intro g k l; rfl
  | cons i rest ih =>
      intro g k l
      show ((walkInsts rest (i.tied.foldl applyTied (g, k, l)).1
          (i.tied.foldl applyTied (g, k, l)).2.1
          (i.tied.foldl applyTied (g, k, l)).2.2).snaps.length) + 1 = rest.length + 1
      rw [ih]

theorem walkInsts_snaps (insts : List RAInst) :
    ∀ (g k l : List Bool) (j : Nat), j < insts.length →
    (walkInsts insts g k l).snaps.get? j =
      some (((entriesOf (insts.take j)).foldl applyTied (g, k, l)).2.2) := by
  induction insts with
  | nil => intro g k l j hj; exact absurd hj (Nat.not_lt_zero j)
  | cons i rest ih =>
      intro g k l j hj
      cases j with
      | zero => rfl
      | succ j =>
          have hj2 : j < rest.length := Nat.lt_of_succ_lt_succ hj
          show (walkInsts rest (i.tied.foldl applyTied (g, k, l)).1
            (i.tied.foldl applyTied (g, k, l)).2.1
            (i.tied.foldl applyTied (g, k, l)).2.2).snaps.get? j = _
          rw [ih _ _ _ j hj2]
          rw [show ((i.tied.foldl applyTied (g, k, l)).1,
              (i.tied.foldl applyTied (g, k, l)).2.1,
              (i.tied.foldl applyTied (g, k, l)).2.2) =
              i.tied.foldl applyTied (g, k, l) from rfl]
          rw [show (i :: rest).take (j + 1) = i :: rest.take j from rfl]
          rw [entriesOf_cons, List.foldl_append]

/-- C7 amended. In the GEN/KILL phase, a block's instructions are walked from
last to first (the walk-order list `walk`) over a running live set whose
initial value `carry` is whatever the (single, phase-wide) running bitmap held
when the block's walk started — all-false only for the first processed block,
the previous block's leftover for any later block.  With per-block-reset GEN
and KILL bitmaps (`resizeLiveBits` zero-fill):
(1) GEN[w] is set iff some tied entry for `w` has a non-write-only role;
(2) KILL[w] ends as the write-only status of the last-applied entry for `w`
(entries applied instruction by instruction, array order within each), and is
clear when `w` is not mentioned;
(3) each instruction's stored snapshot (taken before its own entries are
applied) holds, at `w`, the effect of the entries of previously-walked
instructions, defaulting to the carried-in value where `w` is untouched. -/
theorem constructLiveness_genkill (walk : List RAInst) (W : Nat)
    (carry : List Bool) (w : Nat) (hcarry : carry.length = W)
    (hw : ∀ i ∈ walk, ∀ t ∈ i.tied, t.workId < W) :
    getBit (walkInsts walk (List.replicate W false) (List.replicate W false)
        carry).gen w
      = (entriesOf walk).any (fun t => decide (t.workId = w) && !t.writeOnly) ∧
    getBit (walkInsts walk (List.replicate W false) (List.replicate W false)
        carry).kill w
      = (match lastMention w (entriesOf walk) with
         | some t => t.writeOnly
         | none => false) ∧
    (∀ j s, (walkInsts walk (List.replicate W false) (List.replicate W false)
        carry).snaps.get? j = some s →
      getBit s w = (match lastMention w (entriesOf (walk.take j)) with
        | some t => !t.writeOnly
        | none => getBit carry w)) := by
  have hwE : ∀ t ∈ entriesOf walk, t.workId < W := by
    intro t ht
    rcases List.mem_bind.mp ht with ⟨i, hi, hti⟩
    exact hw i hi t hti
  have hrep : (List.replicate W false).length = W := List.length_replicate W false
  refine ⟨?_, ?_, ?_⟩
  · rw [(walkInsts_as_fold walk (List.replicate W false) (List.replicate W false)
        carry).1]
    rw [foldTied_gen w (entriesOf walk) (List.replicate W false)
      (List.replicate W false) carry (by rw [hrep]; exact hwE)]
    rw [getBit_replicate]
    simp
  · rw [(walkInsts_as_fold walk (List.replicate W false) (List.replicate W false)
        carry).2.1]
    rw [foldTied_kill w (entriesOf walk) (List.replicate W false)
      (List.replicate W false) carry (by rw [hrep]; exact hwE)]
    cases lastMention w (entriesOf walk) with
    | some t => rfl
    | none => exact getBit_replicate W w
  · intro j s hs
    have hj : j < walk.length := by
      have := List.get?_eq_some.mp hs
      rcases this with ⟨hlt, _⟩
      rw [walkInsts_snaps_length walk (List.replicate W false)
        (List.replicate W false) carry] at hlt
      exact hlt
    rw [walkInsts_snaps walk (List.replicate W false) (List.replicate W false)
      carry j hj] at hs
    cases hs
    rw [foldTied_live w (entriesOf (walk.take j)) (List.replicate W false)
      (List.replicate W false) carry (by
        rw [hcarry]
        intro t ht
        rcases List.mem_bind.mp ht with ⟨i, hi, hti⟩
        exact hw i (List.take_subset j walk hi) t hti)]

/-- The single-instruction walk used by the C7 witness: one instruction
reading work register 0. -/
def c7walk : List RAInst := [⟨[⟨0, false⟩]⟩]

/-- Witness for C7 amended at concrete input: one work register, carry-in set
`[true]` (work register 0 live from a previously walked block), walk of one
reading instruction. -/
theorem constructLiveness_genkill_witness :
    (getBit (walkInsts c7walk (List.replicate 1 false) (List.replicate 1 false)
        [true]).gen 0
      = (entriesOf c7walk).any (fun t => decide (t.workId = 0) && !t.writeOnly)) ∧
    (getBit (walkInsts c7walk (List.replicate 1 false) (List.replicate 1 false)
        [true]).kill 0
      = (match lastMention 0 (entriesOf c7walk) with
         | some t => t.writeOnly
         | none => false)) ∧
    (getBit [true] 0 = (match lastMention 0 (entriesOf (c7walk.take 0)) with
        | some t => !t.writeOnly
        | none => getBit [true] 0)) :=
  ⟨(constructLiveness_genkill c7walk 1 [true] 0 (by rfl) (by decide)).1,
   (constructLiveness_genkill c7walk 1 [true] 0 (by rfl) (by decide)).2.1,
   (constructLiveness_genkill c7walk 1 [true] 0 (by rfl) (by decide)).2.2 0 [true] (by rfl)⟩

end AsmJit
